import Mathlib

/-!
Magnum, `MeshTools/CombineIndexedArrays.h`.

A shallow embedding of the index-combining routines of Magnum's mesh tools.

* `std::vector<T>` is a `List T`; `UnsignedInt` and `std::size_t` values are `Nat`
  (no arithmetic of the header can wrap for vectors that fit in memory: positions are
  computed in `std::size_t`).
* The attribute arrays of one call have different element types in C++ (a parameter
  pack).  Here they share one element type `T`, which may be a sum of the types wanted.
* `std::vector::operator[]` is unchecked.  A read outside the vector, like a division by
  zero, is undefined behaviour: the embedding stops the call at that operation with
  `Failure.undefinedBehaviour` and keeps the memory reached so far.
* The header only declares `combineIndexArrays` and
  `Implementation::interleaveAndCombineIndexArrays`; their bodies are modelled from the
  design document and say so.
-/

namespace Magnum.MeshTools

/-- Ways a call ends without returning.  The first two are the error kinds of the design
document; the third is an unchecked C++ operation going wrong. -/
inductive Failure where
  | LengthMismatchError
  | IndexOutOfRangeError
  | undefinedBehaviour
  deriving DecidableEq, Repr

namespace Implementation

/-- The `for` loop of `writeCombinedArray`: `remaining` is `max - i`, and each turn reads
`array[interleavedCombinedIndexArrays[offset + i*stride]]` and pushes it to `output`. -/
def writeCombinedArrayLoop {T : Type} (stride offset : Nat)
    (interleavedCombinedIndexArrays : List Nat) (array : List T) :
    (remaining : Nat) → (i : Nat) → (output : List T) → Except Failure (List T)
  | 0, _, output => .ok output
  | remaining + 1, i, output =>
    match interleavedCombinedIndexArrays[offset + i * stride]? with
    | none => .error .undefinedBehaviour
    | some index =>
      match array[index]? with
      | none => .error .undefinedBehaviour
      | some value =>
        writeCombinedArrayLoop stride offset interleavedCombinedIndexArrays array
          remaining (i + 1) (output ++ [value])

/-- Embedding of `Implementation::writeCombinedArray`: the value returned is the content of `array`
after the final `std::swap(output, array)`; when the call stops early the swap is not
reached and `array` keeps its content. -/
def writeCombinedArray {T : Type} (stride offset : Nat)
    (interleavedCombinedIndexArrays : List Nat) (array : List T) :
    Except Failure (List T) :=
  if stride = 0 then .error .undefinedBehaviour
  else
    writeCombinedArrayLoop stride offset interleavedCombinedIndexArrays array
      (interleavedCombinedIndexArrays.length / stride) 0 []

/-- Embedding of `Implementation::writeCombinedArrays`, the recursion over the parameter pack
`first, next...`.  The list returned is the memory content of the attribute arrays when
the call ends, and the `Option` says whether it ended at an undefined operation: the
arrays rewritten before that point stay rewritten, the others are untouched. -/
def writeCombinedArrays {T : Type} (stride offset : Nat)
    (interleavedCombinedIndexArrays : List Nat) :
    List (List T) → List (List T) × Option Failure
  | [] => ([], none)
  | first :: next =>
    match writeCombinedArray stride offset interleavedCombinedIndexArrays first with
    | .error e => (first :: next, some e)
    | .ok written =>
      let rest := writeCombinedArrays stride (offset + 1) interleavedCombinedIndexArrays next
      (written :: rest.1, rest.2)

end Implementation

/-- The index tuple of vertex slot `i`: the view of `stride` values at offset `i*stride`
of an interleaved array. -/
def tupleAt (interleavedArrays : List Nat) (stride i : Nat) : List Nat :=
  (interleavedArrays.drop (i * stride)).take stride

/-- Working state of the deduplicating scan: the value-keyed lookup from tuple content to
the id already assigned, and the two outputs built so far. -/
structure CombineState where
  lookup : List (List Nat × Nat)
  combinedIndices : List Nat
  reducedInterleaved : List Nat
  deriving DecidableEq, Repr

/-- Modelled from the spec: one turn of the Deduplicator scan (section 4.2), whose body is
not in the header.  An identical tuple seen before gives its id again; otherwise the id
is the count of distinct tuples seen so far and the tuple is appended to the output. -/
def combineSlot (interleavedArrays : List Nat) (stride : Nat) (st : CombineState)
    (i : Nat) : CombineState :=
  let tuple := tupleAt interleavedArrays stride i
  match st.lookup.lookup tuple with
  | some id => { st with combinedIndices := st.combinedIndices ++ [id] }
  | none =>
    { lookup := st.lookup ++ [(tuple, st.lookup.length)]
      combinedIndices := st.combinedIndices ++ [st.lookup.length]
      reducedInterleaved := st.reducedInterleaved ++ tuple }

/-- Modelled from the spec: the scan of slots `0 .. n-1`, left to right. -/
def combineScan (interleavedArrays : List Nat) (stride n : Nat) : CombineState :=
  (List.range n).foldl (combineSlot interleavedArrays stride) ⟨[], [], []⟩

/-- Modelled from the spec: `combineIndexArrays(interleavedArrays, stride)`, declared in
the header with its body elsewhere; this is the Deduplicator of section 4.2.  It returns
the pair (combined index array, reduced interleaved array).  The slot count is
`size/stride`; a zero stride gives no slot, hence two empty outputs. -/
def combineIndexArrays (interleavedArrays : List Nat) (stride : Nat) :
    List Nat × List Nat :=
  let st := combineScan interleavedArrays stride (interleavedArrays.length / stride)
  (st.combinedIndices, st.reducedInterleaved)

/-- Modelled from the spec: the Interleaver of section 4.1, whose body is not in the
header.  Group `i` of the output holds `(array₁[i], …, array_N[i])`; an array whose length
differs from the first array's length is a `LengthMismatchError`. -/
def interleave (arrays : List (List Nat)) : Except Failure (List Nat) :=
  match arrays with
  | [] => .ok []
  | first :: _ =>
    if arrays.all (fun a => a.length == first.length) then
      .ok ((List.range first.length).flatMap (fun i => arrays.map (fun a => a.getD i 0)))
    else .error .LengthMismatchError

/-- Modelled from the spec: `Implementation::interleaveAndCombineIndexArrays(begin, end)`,
declared in the header with its body elsewhere: the Interleaver followed by the
Deduplicator, the stride being the number of arrays. -/
def Implementation.interleaveAndCombineIndexArrays (arrays : List (List Nat)) :
    Except Failure (List Nat × List Nat) :=
  match interleave arrays with
  | .error e => .error e
  | .ok interleavedArrays => .ok (combineIndexArrays interleavedArrays arrays.length)

/-- The column of channel `k` in a reduced interleaved array of stride `stride`. -/
def deinterleaveColumn (reducedInterleaved : List Nat) (stride k : Nat) : List Nat :=
  (List.range (reducedInterleaved.length / stride)).map
    (fun u => reducedInterleaved.getD (u * stride + k) 0)

/-- What a call leaves behind: the value returned, or the way the call ended instead, and
the content of the arrays passed by mutable reference once the call has ended. -/
structure Call (T : Type) where
  returned : Except Failure (List Nat)
  arrays : List (List T)

/-- Modelled from the spec: `combineIndexArrays(arrays)` on a list of references to index
arrays (section 4.4), declared in the header with its body elsewhere.  It interleaves and
deduplicates, writes the de-interleaved reduced array back into every input array and
returns the combined index array; a length mismatch leaves the inputs as they were. -/
def combineIndexArraysRefs (arrays : List (List Nat)) : Call Nat :=
  match Implementation.interleaveAndCombineIndexArrays arrays with
  | .error e => { returned := .error e, arrays := arrays }
  | .ok (combinedIndices, reducedInterleaved) =>
    { returned := .ok combinedIndices
      arrays := (List.range arrays.length).map
        (deinterleaveColumn reducedInterleaved arrays.length) }

/-- Embedding of `combineIndexedArrays(indexedArrays...)`: every pair is (index array, attribute
array).  `sizeof...(T)` is the number of pairs.  `Call.arrays` is the content of the
attribute arrays after the call. -/
def combineIndexedArrays {T : Type} (indexedArrays : List (List Nat × List T)) : Call T :=
  match Implementation.interleaveAndCombineIndexArrays (indexedArrays.map Prod.fst) with
  | .error e => { returned := .error e, arrays := indexedArrays.map Prod.snd }
  | .ok (combinedIndices, interleavedCombinedIndexArrays) =>
    match Implementation.writeCombinedArrays indexedArrays.length 0
        interleavedCombinedIndexArrays (indexedArrays.map Prod.snd) with
    | (arrays, some e) => { returned := .error e, arrays := arrays }
    | (arrays, none) => { returned := .ok combinedIndices, arrays := arrays }

/-- The calls of `writeCombinedArray` that `Implementation::writeCombinedArrays` makes, in
order, each recorded as (stride, offset): one for every `first` the recursion reaches,
the terminator overload making none. -/
def Implementation.writeCombinedArraysCalls {T : Type} (stride offset : Nat)
    (interleavedCombinedIndexArrays : List Nat) : List (List T) → List (Nat × Nat)
  | [] => []
  | first :: next =>
    (stride, offset) ::
      match Implementation.writeCombinedArray stride offset
          interleavedCombinedIndexArrays first with
      | .error _ => []
      | .ok _ =>
        writeCombinedArraysCalls stride (offset + 1) interleavedCombinedIndexArrays next

/-- The calls of `writeCombinedArray` that `combineIndexedArrays` makes, as
(stride, offset), through its one call of `writeCombinedArrays` with stride
`sizeof...(T)` and offset 0. -/
def combineIndexedArraysCalls {T : Type} (indexedArrays : List (List Nat × List T)) :
    List (Nat × Nat) :=
  match Implementation.interleaveAndCombineIndexArrays (indexedArrays.map Prod.fst) with
  | .error _ => []
  | .ok (_, interleavedCombinedIndexArrays) =>
    Implementation.writeCombinedArraysCalls indexedArrays.length 0
      interleavedCombinedIndexArrays (indexedArrays.map Prod.snd)

/-- The tuples that have an id so far, in id order. -/
def CombineState.tuples (st : CombineState) : List (List Nat) :=
  st.lookup.map Prod.fst

/-- The tuples of all the slots of an interleaved array, slot by slot. -/
def slotTuples (interleavedArrays : List Nat) (stride : Nat) : List (List Nat) :=
  (List.range (interleavedArrays.length / stride)).map (tupleAt interleavedArrays stride)

/-- The number `U` of distinct tuples among the slots of an interleaved array. -/
def distinctTuples (interleavedArrays : List Nat) (stride : Nat) : Nat :=
  (slotTuples interleavedArrays stride).dedup.length

/-- What the scan maintains after `n` slots of the interleaved array `X` of stride `N`. -/
structure ScanInvariant (X : List Nat) (N n : Nat) (st : CombineState) : Prop where
  ids : ∀ (j : Nat) (p : List Nat × Nat), st.lookup[j]? = some p → p.2 = j
  nodup : st.tuples.Nodup
  reduced : st.reducedInterleaved = st.tuples.flatten
  length : st.combinedIndices.length = n
  slot : ∀ i : Nat, i < n → ∃ id : Nat, st.combinedIndices[i]? = some id ∧
    st.tuples[id]? = some (tupleAt X N i)
  occurs : ∀ u : Nat, u < st.tuples.length →
    ∃ j : Nat, j < n ∧ st.combinedIndices[j]? = some u
  dense : ∀ i id : Nat, st.combinedIndices[i]? = some id → ∀ u : Nat, u < id →
    ∃ j : Nat, j < i ∧ st.combinedIndices[j]? = some u

end Magnum.MeshTools

/-! ## The deduplicating scan -/

namespace Magnum.MeshTools

theorem CombineState.tuples_length (st : CombineState) :
    st.tuples.length = st.lookup.length := by
  simp [CombineState.tuples]

/-- A successful lookup gives the position of the tuple among the tuples seen. -/
theorem lookup_some_tuples (st : CombineState) (t : List Nat) (id : Nat)
    (hids : ∀ (j : Nat) (p : List Nat × Nat), st.lookup[j]? = some p → p.2 = j)
    (h : st.lookup.lookup t = some id) : st.tuples[id]? = some t := by
  obtain ⟨l₁, l₂, hl, _⟩ := List.lookup_eq_some_iff.mp h
  have hget : st.lookup[l₁.length]? = some (t, id) := by
    rw [hl, List.getElem?_append_right (Nat.le_refl _)]; simp
  have hid : id = l₁.length := hids _ _ hget
  simp only [CombineState.tuples, List.getElem?_map]
  rw [hid, hget]
  rfl

/-- A failed lookup means the tuple was not seen. -/
theorem lookup_none_tuples (st : CombineState) (t : List Nat)
    (h : st.lookup.lookup t = none) : t ∉ st.tuples := by
  intro hmem
  obtain ⟨p, hp, rfl⟩ := List.mem_map.mp hmem
  have := List.lookup_eq_none_iff.mp h p hp
  simp at this

theorem combineScan_succ (X : List Nat) (N n : Nat) :
    combineScan X N (n + 1) = combineSlot X N (combineScan X N n) n := by
  simp [combineScan, List.range_succ, List.foldl_append]

theorem scanInvariant_zero (X : List Nat) (N : Nat) :
    ScanInvariant X N 0 (combineScan X N 0) where
  ids := by intro j p h; simp [combineScan] at h
  nodup := by simp [combineScan, CombineState.tuples]
  reduced := by simp [combineScan, CombineState.tuples]
  length := by simp [combineScan]
  slot := by intro i hi; omega
  occurs := by intro u hu; simp [combineScan, CombineState.tuples] at hu
  dense := by intro i id h; simp [combineScan] at h

/-- One turn of the scan keeps the invariant. -/
theorem scanInvariant_step (X : List Nat) (N n : Nat) (st : CombineState)
    (inv : ScanInvariant X N n st) : ScanInvariant X N (n + 1) (combineSlot X N st n) := by
  have hlen := inv.length
  unfold combineSlot
  simp only
  split
  · rename_i id hlook
    have hid := lookup_some_tuples st _ id inv.ids hlook
    have hidlt : id < st.tuples.length := by
      by_contra hc
      rw [List.getElem?_eq_none (by omega)] at hid
      cases hid
    refine ⟨inv.ids, inv.nodup, inv.reduced, by simp [hlen], ?_, ?_, ?_⟩
    · intro i hi
      by_cases hin : i < n
      · obtain ⟨c, h1, h2⟩ := inv.slot i hin
        exact ⟨c, by rw [List.getElem?_append_left (by omega)]; exact h1, h2⟩
      · have : i = n := by omega
        subst this
        exact ⟨id, by rw [List.getElem?_append_right (by omega)]; simp [hlen], hid⟩
    · intro u hu
      obtain ⟨j, hj, h1⟩ := inv.occurs u hu
      exact ⟨j, by omega, by rw [List.getElem?_append_left (by omega)]; exact h1⟩
    · intro i c hc u hu
      by_cases hin : i < n
      · rw [List.getElem?_append_left (by omega)] at hc
        obtain ⟨j, hj, h1⟩ := inv.dense i c hc u hu
        exact ⟨j, hj, by rw [List.getElem?_append_left (by omega)]; exact h1⟩
      · by_cases hie : i = n
        · subst hie
          rw [List.getElem?_append_right (by omega)] at hc
          simp [hlen] at hc
          subst hc
          obtain ⟨j, hj, h1⟩ := inv.occurs u (by omega)
          exact ⟨j, hj, by rw [List.getElem?_append_left (by omega)]; exact h1⟩
        · rw [List.getElem?_eq_none (by simp; omega)] at hc
          cases hc
  · rename_i hlook
    have hnew := lookup_none_tuples st _ hlook
    have htl := st.tuples_length
    refine ⟨?_, ?_, ?_, by simp [hlen], ?_, ?_, ?_⟩
    · intro j p hp
      by_cases hj : j < st.lookup.length
      · rw [List.getElem?_append_left hj] at hp
        exact inv.ids j p hp
      · by_cases hje : j = st.lookup.length
        · subst hje
          simp at hp
          subst hp
          rfl
        · rw [List.getElem?_eq_none (by simp; omega)] at hp
          cases hp
    · simp only [CombineState.tuples, List.map_append, List.map_cons, List.map_nil]
      refine List.Nodup.append inv.nodup (List.nodup_singleton _) ?_
      intro a ha hb
      rw [List.mem_singleton] at hb
      subst hb
      exact hnew ha
    · simp only [CombineState.tuples, List.map_append, List.map_cons, List.map_nil,
        List.flatten_append]
      rw [inv.reduced]
      simp [CombineState.tuples]
    · intro i hi
      by_cases hin : i < n
      · obtain ⟨c, h1, h2⟩ := inv.slot i hin
        refine ⟨c, by rw [List.getElem?_append_left (by omega)]; exact h1, ?_⟩
        have hclt : c < st.tuples.length := by
          by_contra hc
          rw [List.getElem?_eq_none (by omega)] at h2
          cases h2
        simp only [CombineState.tuples, List.map_append, List.map_cons, List.map_nil]
        rw [List.getElem?_append_left (by simpa [CombineState.tuples] using hclt)]
        exact h2
      · have : i = n := by omega
        subst this
        refine ⟨st.lookup.length,
          by rw [List.getElem?_append_right (by omega)]; simp [hlen], ?_⟩
        simp [CombineState.tuples]
    · intro u hu
      simp only [CombineState.tuples, List.map_append, List.map_cons, List.map_nil,
        List.length_append, List.length_map, List.length_singleton] at hu
      by_cases hul : u < st.lookup.length
      · obtain ⟨j, hj, h1⟩ := inv.occurs u (by omega)
        exact ⟨j, by omega, by rw [List.getElem?_append_left (by omega)]; exact h1⟩
      · have : u = st.lookup.length := by omega
        subst this
        exact ⟨n, by omega, by rw [List.getElem?_append_right (by omega)]; simp [hlen]⟩
    · intro i c hc u hu
      by_cases hin : i < n
      · rw [List.getElem?_append_left (by omega)] at hc
        obtain ⟨j, hj, h1⟩ := inv.dense i c hc u hu
        exact ⟨j, hj, by rw [List.getElem?_append_left (by omega)]; exact h1⟩
      · by_cases hie : i = n
        · subst hie
          rw [List.getElem?_append_right (by omega)] at hc
          simp [hlen] at hc
          subst hc
          obtain ⟨j, hj, h1⟩ := inv.occurs u (by omega)
          exact ⟨j, hj, by rw [List.getElem?_append_left (by omega)]; exact h1⟩
        · rw [List.getElem?_eq_none (by simp; omega)] at hc
          cases hc

/-- The invariant holds after any number of slots. -/
theorem scanInvariant (X : List Nat) (N n : Nat) :
    ScanInvariant X N n (combineScan X N n) := by
  induction n with
  | zero => exact scanInvariant_zero X N
  | succ n ih =>
    rw [combineScan_succ]
    exact scanInvariant_step X N n _ ih

end Magnum.MeshTools

/-! ## Tuples as views of an interleaved array -/

namespace Magnum.MeshTools

theorem tupleAt_getElem? (X : List Nat) (N i k : Nat) (hk : k < N) :
    (tupleAt X N i)[k]? = X[i * N + k]? := by
  simp [tupleAt, List.getElem?_take_of_lt hk, List.getElem?_drop]

theorem tupleAt_getElem?_none (X : List Nat) (N i k : Nat) (hk : N ≤ k) :
    (tupleAt X N i)[k]? = none := by
  apply List.getElem?_eq_none
  simp only [tupleAt, List.length_take]
  omega

/-- Two tuples are equal exactly when they are element-wise equal. -/
theorem tupleAt_eq_iff (X Y : List Nat) (N i j : Nat) :
    tupleAt X N i = tupleAt Y N j ↔ ∀ k, k < N → X[i * N + k]? = Y[j * N + k]? := by
  constructor
  · intro h k hk
    rw [← tupleAt_getElem? X N i k hk, ← tupleAt_getElem? Y N j k hk, h]
  · intro h
    apply List.ext_getElem?
    intro k
    by_cases hk : k < N
    · rw [tupleAt_getElem? X N i k hk, tupleAt_getElem? Y N j k hk, h k hk]
    · rw [tupleAt_getElem?_none X N i k (by omega), tupleAt_getElem?_none Y N j k (by omega)]

theorem slot_end_le (X : List Nat) (N i : Nat) (hi : i < X.length / N) :
    (i + 1) * N ≤ X.length := by
  have h1 : (i + 1) * N ≤ X.length / N * N := Nat.mul_le_mul_right N hi
  have h2 := Nat.div_mul_le_self X.length N
  omega

theorem tupleAt_length (X : List Nat) (N i : Nat) (hi : i < X.length / N) :
    (tupleAt X N i).length = N := by
  have h := slot_end_le X N i hi
  have h2 : (i + 1) * N = i * N + N := by ring
  simp only [tupleAt, List.length_take, List.length_drop]
  omega

theorem length_flatten_of_length (ts : List (List Nat)) (N : Nat)
    (hlen : ∀ t ∈ ts, t.length = N) : ts.flatten.length = ts.length * N := by
  induction ts with
  | nil => simp
  | cons t ts ih =>
    have h1 := hlen t (by simp)
    have h2 := ih (fun t ht => hlen t (by simp [ht]))
    simp only [List.flatten_cons, List.length_append, List.length_cons, h1, h2]
    ring

/-- In a flattened list of tuples of one length, slot `u` is tuple `u`. -/
theorem tupleAt_flatten (ts : List (List Nat)) (N u : Nat) (t : List Nat)
    (hlen : ∀ t ∈ ts, t.length = N) (h : ts[u]? = some t) :
    tupleAt ts.flatten N u = t := by
  induction ts generalizing u with
  | nil => simp at h
  | cons a ts ih =>
    have ha := hlen a (by simp)
    cases u with
    | zero =>
      simp only [List.getElem?_cons_zero, Option.some.injEq] at h
      subst h
      simp [tupleAt, List.take_append_of_le_length (Nat.le_of_eq ha.symm), ← ha]
    | succ u =>
      simp only [List.getElem?_cons_succ] at h
      have := ih u (fun t ht => hlen t (by simp [ht])) h
      rw [← this]
      simp only [tupleAt, List.flatten_cons]
      rw [show (u + 1) * N = a.length + u * N by rw [ha]; ring, ← List.drop_drop]
      simp

/-- The deduplicator, summed up: the tuples with an id, in id order, and how the two
outputs relate to them. -/
theorem combineIndexArrays_tuples (X : List Nat) (N : Nat) :
    ∃ ts : List (List Nat), ts.Nodup ∧ (∀ t ∈ ts, t.length = N) ∧
      (combineIndexArrays X N).2 = ts.flatten ∧
      (combineIndexArrays X N).1.length = X.length / N ∧
      (∀ i : Nat, i < X.length / N → ∃ id : Nat,
        (combineIndexArrays X N).1[i]? = some id ∧ ts[id]? = some (tupleAt X N i)) ∧
      (∀ u : Nat, u < ts.length → ∃ j : Nat, j < X.length / N ∧
        (combineIndexArrays X N).1[j]? = some u) ∧
      (∀ i id : Nat, (combineIndexArrays X N).1[i]? = some id → ∀ u : Nat, u < id →
        ∃ j : Nat, j < i ∧ (combineIndexArrays X N).1[j]? = some u) ∧
      ts.length = distinctTuples X N := by
  have inv := scanInvariant X N (X.length / N)
  have hfrom : ∀ t ∈ (combineScan X N (X.length / N)).tuples,
      ∃ j, j < X.length / N ∧ t = tupleAt X N j := by
    intro t ht
    obtain ⟨u, hu⟩ := List.mem_iff_getElem?.mp ht
    have hult : u < (combineScan X N (X.length / N)).tuples.length := by
      by_contra hc
      rw [List.getElem?_eq_none (by omega)] at hu
      cases hu
    obtain ⟨j, hj, hcj⟩ := inv.occurs u hult
    obtain ⟨id, h1, h2⟩ := inv.slot j hj
    rw [hcj] at h1
    cases h1
    rw [hu] at h2
    cases h2
    exact ⟨j, hj, rfl⟩
  refine ⟨(combineScan X N (X.length / N)).tuples, inv.nodup, ?_, inv.reduced, inv.length,
    inv.slot, inv.occurs, inv.dense, ?_⟩
  · intro t ht
    obtain ⟨j, hj, rfl⟩ := hfrom t ht
    exact tupleAt_length X N j hj
  · have hset : (combineScan X N (X.length / N)).tuples.toFinset
        = (slotTuples X N).toFinset := by
      ext t
      simp only [List.mem_toFinset, slotTuples, List.mem_map, List.mem_range]
      constructor
      · intro ht
        obtain ⟨j, hj, rfl⟩ := hfrom t ht
        exact ⟨j, hj, rfl⟩
      · rintro ⟨j, hj, rfl⟩
        obtain ⟨id, _, h2⟩ := inv.slot j hj
        exact List.mem_iff_getElem?.mpr ⟨id, h2⟩
    rw [distinctTuples, ← List.card_toFinset, ← hset, List.toFinset_card_of_nodup inv.nodup]

end Magnum.MeshTools

/-! ## The attribute rewriter -/

namespace Magnum.MeshTools

open Implementation

/-- The loop never ends in one of the two named errors. -/
theorem writeCombinedArrayLoop_error {T : Type} (stride offset : Nat) (R : List Nat)
    (array : List T) (n i : Nat) (output : List T) (e : Failure)
    (h : writeCombinedArrayLoop stride offset R array n i output = .error e) :
    e = .undefinedBehaviour := by
  induction n generalizing i output with
  | zero => simp [writeCombinedArrayLoop] at h
  | succ n ih =>
    unfold writeCombinedArrayLoop at h
    split at h
    · cases h; rfl
    · split at h
      · cases h; rfl
      · exact ih _ _ h

/-- When every read of the loop is inside its vector, the loop ends normally and has
pushed one value per turn, each being the attribute addressed by the reduced index. -/
theorem writeCombinedArrayLoop_ok {T : Type} (stride offset : Nat) (R : List Nat)
    (array : List T) (n i : Nat) (output : List T)
    (h : ∀ j, j < n → ∃ index, R[offset + (i + j) * stride]? = some index ∧
      index < array.length) :
    ∃ pushed, writeCombinedArrayLoop stride offset R array n i output
        = .ok (output ++ pushed) ∧ pushed.length = n ∧
      ∀ j, j < n → ∃ index a, R[offset + (i + j) * stride]? = some index ∧
        array[index]? = some a ∧ pushed[j]? = some a := by
  induction n generalizing i output with
  | zero => exact ⟨[], by simp [writeCombinedArrayLoop], rfl, by intro j hj; omega⟩
  | succ n ih =>
    obtain ⟨index, hR, hlt⟩ := h 0 (by omega)
    have hA : array[index]? = some array[index] := List.getElem?_eq_getElem hlt
    obtain ⟨pushed, hrun, hlen, hget⟩ := ih (i + 1) (output ++ [array[index]]) (by
      intro j hj
      have := h (j + 1) (by omega)
      rwa [show i + (j + 1) = i + 1 + j by omega] at this)
    refine ⟨array[index] :: pushed, ?_, by simp [hlen], ?_⟩
    · unfold writeCombinedArrayLoop
      simp only [Nat.add_zero] at hR
      rw [hR]
      simp only [hA]
      rw [hrun]
      simp
    · intro j hj
      cases j with
      | zero => exact ⟨index, array[index], hR, hA, by simp⟩
      | succ j =>
        obtain ⟨ix, a, h1, h2, h3⟩ := hget j (by omega)
        refine ⟨ix, a, ?_, h2, by simpa using h3⟩
        rwa [show i + (j + 1) = i + 1 + j by omega]

/-- When some read of the loop is outside its vector, the loop stops there. -/
theorem writeCombinedArrayLoop_fault {T : Type} (stride offset : Nat) (R : List Nat)
    (array : List T) (n i : Nat) (output : List T) (j : Nat) (hj : j < n)
    (h : ∀ index, R[offset + (i + j) * stride]? = some index → array.length ≤ index) :
    writeCombinedArrayLoop stride offset R array n i output
      = .error .undefinedBehaviour := by
  induction n generalizing i output j with
  | zero => omega
  | succ n ih =>
    unfold writeCombinedArrayLoop
    split
    · rfl
    · rename_i index hR
      split
      · rfl
      · rename_i value hA
        cases j with
        | zero =>
          have := h index (by simpa using hR)
          have hlt : index < array.length := by
            by_contra hc
            rw [List.getElem?_eq_none (by omega)] at hA
            cases hA
          omega
        | succ j =>
          exact ih (i + 1) _ j (by omega) (by
            intro ix hix
            exact h ix (by rwa [show i + (j + 1) = i + 1 + j by omega]))

/-- Inside a reduced array of `U` tuples of `N` values, position `u*N + o` exists. -/
theorem reduced_position_lt (N o U u : Nat) (ho : o < N) (hu : u < U) :
    o + u * N < U * N := by
  have h1 : (u + 1) * N ≤ U * N := Nat.mul_le_mul_right N hu
  have h2 : (u + 1) * N = u * N + N := by ring
  omega

/-- The rewriter on in-range reduced indices: shared by the statements below. -/
theorem writeCombinedArray_in_range {T : Type} (N o U : Nat) (R : List Nat)
    (A : List T) (hN : 1 ≤ N) (ho : o < N) (hR : R.length = U * N)
    (hA : ∀ u, u < U → ∀ index, R[u * N + o]? = some index → index < A.length) :
    ∃ A', writeCombinedArray N o R A = .ok A' ∧ A'.length = U ∧
      ∀ u, u < U → ∃ index a, R[u * N + o]? = some index ∧ A[index]? = some a ∧
        A'[u]? = some a := by
  have hdiv : R.length / N = U := by
    rw [hR]; exact Nat.mul_div_cancel U (by omega)
  obtain ⟨pushed, hrun, hlen, hget⟩ := writeCombinedArrayLoop_ok N o R A U 0 [] (by
    intro j hj
    have hpos : o + j * N < R.length := hR ▸ reduced_position_lt N o U j ho hj
    refine ⟨R[o + j * N], ?_, ?_⟩
    · rw [Nat.zero_add]; exact List.getElem?_eq_getElem hpos
    · exact hA j hj _ (by rw [Nat.add_comm]; exact List.getElem?_eq_getElem hpos))
  refine ⟨pushed, ?_, hlen, ?_⟩
  · unfold writeCombinedArray
    rw [if_neg (by omega), hdiv, hrun]
    simp
  · intro u hu
    obtain ⟨index, a, h1, h2, h3⟩ := hget u hu
    exact ⟨index, a, by rwa [Nat.zero_add, Nat.add_comm] at h1, h2, h3⟩

/-- C2. Postcondition of `writeCombinedArray`: with stride `N ≥ 1`, offset `o < N`, a
reduced interleaved array `R` of length `U*N` and every `R[u*N + o]` (`u < U`) below the
length of the attribute array `A`, the call ends normally, the attribute array then has
length exactly `U`, and its element `u` is the original `A[R[u*N + o]]`. -/
theorem writeCombinedArray_postcondition {T : Type} (N o U : Nat) (R : List Nat)
    (A : List T) (hN : 1 ≤ N) (ho : o < N) (hR : R.length = U * N)
    (hA : ∀ u, u < U → ∀ index, R[u * N + o]? = some index → index < A.length) :
    ∃ A', writeCombinedArray N o R A = .ok A' ∧ A'.length = U ∧
      ∀ u, u < U → ∃ index a, R[u * N + o]? = some index ∧ A[index]? = some a ∧
        A'[u]? = some a := by
  have hdiv : R.length / N = U := by
    rw [hR]; exact Nat.mul_div_cancel U (by omega)
  have hreads : ∀ j, j < U → ∃ index, R[o + (0 + j) * N]? = some index ∧
      index < A.length := by
    intro j hj
    have hpos : o + j * N < R.length := hR ▸ reduced_position_lt N o U j ho hj
    refine ⟨R[o + j * N], ?_, ?_⟩
    · rw [Nat.zero_add]; exact List.getElem?_eq_getElem hpos
    · exact hA j hj _ (by rw [Nat.add_comm]; exact List.getElem?_eq_getElem hpos)
  obtain ⟨pushed, hrun, hlen, hget⟩ := writeCombinedArrayLoop_ok N o R A U 0 [] hreads
  refine ⟨pushed, ?_, hlen, ?_⟩
  · unfold writeCombinedArray
    rw [if_neg (by omega), hdiv, hrun]
    simp
  · intro u hu
    obtain ⟨index, a, h1, h2, h3⟩ := hget u hu
    exact ⟨index, a, by rwa [Nat.zero_add, Nat.add_comm] at h1, h2, h3⟩

/-- C2, on the arrays of the documentation: positions `a..f` at offset 0 become
`a c f a b d c` and normals `A..G` at offset 1 become `B D E E G B B`. -/
theorem writeCombinedArray_postcondition_witness :
    (∃ A', writeCombinedArray 2 0 [0, 1, 2, 3, 5, 4, 0, 4, 1, 6, 3, 1, 2, 1]
        ['a', 'b', 'c', 'd', 'e', 'f'] = .ok A' ∧ A'.length = 7 ∧
      ∀ u, u < 7 → ∃ index a,
        [0, 1, 2, 3, 5, 4, 0, 4, 1, 6, 3, 1, 2, 1][u * 2 + 0]? = some index ∧
        ['a', 'b', 'c', 'd', 'e', 'f'][index]? = some a ∧ A'[u]? = some a) ∧
    writeCombinedArray 2 0 [0, 1, 2, 3, 5, 4, 0, 4, 1, 6, 3, 1, 2, 1]
      ['a', 'b', 'c', 'd', 'e', 'f'] = .ok ['a', 'c', 'f', 'a', 'b', 'd', 'c'] ∧
    writeCombinedArray 2 1 [0, 1, 2, 3, 5, 4, 0, 4, 1, 6, 3, 1, 2, 1]
      ['A', 'B', 'C', 'D', 'E', 'F', 'G'] = .ok ['B', 'D', 'E', 'E', 'G', 'B', 'B'] :=
  ⟨writeCombinedArray_postcondition 2 0 7 [0, 1, 2, 3, 5, 4, 0, 4, 1, 6, 3, 1, 2, 1]
      ['a', 'b', 'c', 'd', 'e', 'f'] (by decide) (by decide) (by decide)
      (by intro u hu index h; interval_cases u <;> simp at h <;> subst h <;> decide),
    rfl, rfl⟩

/-- C9, as the claim states it, fails: the reduced index 5 is outside a one-element
attribute array, and the call does not end in `IndexOutOfRangeError`. -/
theorem writeCombinedArray_no_IndexOutOfRangeError :
    ¬ (writeCombinedArray 1 0 [5] ['a'] = .error .IndexOutOfRangeError ↔
      ∃ u, u < 1 ∧ ∃ index, [5][u * 1 + 0]? = some index ∧ ['a'].length ≤ index) := by
  intro h
  have hcall := h.2 ⟨0, by decide, 5, rfl, by decide⟩
  have hrun : writeCombinedArray 1 0 [5] ['a'] = .error .undefinedBehaviour := rfl
  rw [hrun] at hcall
  cases hcall

/-- C9, amended. `writeCombinedArray` checks no index and raises no error of its own: with
stride `N ≥ 1`, offset `o < N` and a reduced array of length `U*N`, the call runs into the
undefined behaviour of an unchecked read outside the attribute array if and only if some
referenced index `R[u*N + o]`, `u < U`, is at least the attribute array's length; it ends
in no other failure, and ends normally otherwise. -/
theorem writeCombinedArray_out_of_range_iff {T : Type} (N o U : Nat) (R : List Nat)
    (A : List T) (hN : 1 ≤ N) (ho : o < N) (hR : R.length = U * N) :
    (writeCombinedArray N o R A = .error .undefinedBehaviour ↔
      ∃ u, u < U ∧ ∃ index, R[u * N + o]? = some index ∧ A.length ≤ index) ∧
    (∀ e, writeCombinedArray N o R A = .error e → e = .undefinedBehaviour) ∧
    ((∀ u, u < U → ∀ index, R[u * N + o]? = some index → index < A.length) →
      ∃ A', writeCombinedArray N o R A = .ok A') := by
  have hdiv : R.length / N = U := by
    rw [hR]; exact Nat.mul_div_cancel U (by omega)
  have hok : (∀ u, u < U → ∀ index, R[u * N + o]? = some index → index < A.length) →
      ∃ A', writeCombinedArray N o R A = .ok A' := by
    intro hall
    obtain ⟨A', h, _⟩ := writeCombinedArray_in_range N o U R A hN ho hR hall
    exact ⟨A', h⟩
  refine ⟨⟨?_, ?_⟩, ?_, hok⟩
  · intro herr
    by_contra hnone
    obtain ⟨A', h⟩ := hok (by
      intro u hu index hidx
      by_contra hge
      exact hnone ⟨u, hu, index, hidx, by omega⟩)
    rw [h] at herr
    cases herr
  · rintro ⟨u, hu, index, hidx, hge⟩
    unfold writeCombinedArray
    rw [if_neg (by omega), hdiv]
    refine writeCombinedArrayLoop_fault N o R A U 0 [] u hu ?_
    intro ix hix
    rw [Nat.zero_add, Nat.add_comm, hidx] at hix
    cases hix
    exact hge
  · intro e he
    unfold writeCombinedArray at he
    rw [if_neg (by omega)] at he
    exact writeCombinedArrayLoop_error _ _ _ _ _ _ _ _ he

/-- C9, amended, on a one-element attribute array addressed by the reduced index 5. -/
theorem writeCombinedArray_out_of_range_iff_witness :
    (writeCombinedArray 1 0 [5] ['a'] = .error .undefinedBehaviour ↔
      ∃ u, u < 1 ∧ ∃ index, [5][u * 1 + 0]? = some index ∧ ['a'].length ≤ index) ∧
    (∀ e, writeCombinedArray 1 0 [5] ['a'] = .error e → e = .undefinedBehaviour) ∧
    ((∀ u, u < 1 → ∀ index, [5][u * 1 + 0]? = some index → index < ['a'].length) →
      ∃ A', writeCombinedArray 1 0 [5] ['a'] = .ok A') :=
  writeCombinedArray_out_of_range_iff 1 0 1 [5] ['a'] (by decide) (by decide) (by decide)

end Magnum.MeshTools

/-! ## The deduplicator: `combineIndexArrays(interleavedArrays, stride)` -/

namespace Magnum.MeshTools

theorem slots_eq (X : List Nat) (N L : Nat) (hN : 1 ≤ N) (hX : X.length = L * N) :
    X.length / N = L := by
  rw [hX]; exact Nat.mul_div_cancel L (by omega)

theorem getElem?_lt_of_eq_some {α : Type} (l : List α) (i : Nat) (a : α)
    (h : l[i]? = some a) : i < l.length := by
  by_contra hc
  rw [List.getElem?_eq_none (by omega)] at h
  cases h

theorem le_foldl_max (l : List Nat) (b x : Nat) (h : x ≤ b ∨ x ∈ l) :
    x ≤ l.foldl max b := by
  induction l generalizing b with
  | nil =>
    rcases h with h | h
    · simpa using h
    · simp at h
  | cons a l ih =>
    simp only [List.foldl_cons]
    apply ih
    rcases h with h | h
    · exact Or.inl (le_trans h (le_max_left _ _))
    · rcases List.mem_cons.mp h with h | h
      · exact Or.inl (h ▸ le_max_right _ _)
      · exact Or.inr h

/-- C3. Deduplication is exact: for an interleaved array of length `L*N` with stride
`N ≥ 1`, the combined index array `c` of `combineIndexArrays` has `c[i] = c[j]` if and
only if the tuples of slots `i` and `j` are element-wise equal, for all slots `i, j < L`. -/
theorem combineIndexArrays_dedup_exact (X : List Nat) (N L : Nat) (hN : 1 ≤ N)
    (hX : X.length = L * N) :
    ∀ i j, i < L → j < L → ∃ ci cj, (combineIndexArrays X N).1[i]? = some ci ∧
      (combineIndexArrays X N).1[j]? = some cj ∧
      (ci = cj ↔ ∀ k, k < N → X[i * N + k]? = X[j * N + k]?) := by
  intro i j hi hj
  obtain ⟨ts, hnd, _, _, _, hslot, _, _, _⟩ := combineIndexArrays_tuples X N
  rw [slots_eq X N L hN hX] at hslot
  obtain ⟨ci, hci, hti⟩ := hslot i hi
  obtain ⟨cj, hcj, htj⟩ := hslot j hj
  refine ⟨ci, cj, hci, hcj, ?_⟩
  rw [← tupleAt_eq_iff]
  constructor
  · intro h
    subst h
    rw [hti] at htj
    exact Option.some.inj htj
  · intro h
    obtain ⟨hil, hie⟩ := List.getElem?_eq_some.mp hti
    obtain ⟨hjl, hje⟩ := List.getElem?_eq_some.mp htj
    exact (hnd.getElem_inj_iff).mp (by rw [hie, hje, h])

/-- C3 on the interleaved array of the documentation (9 slots, stride 2), at slots 0 and
3, which hold the same tuple `0 1`, and at slots 0 and 4, which do not. -/
theorem combineIndexArrays_dedup_exact_witness :
    (∃ ci cj,
      (combineIndexArrays [0, 1, 2, 3, 5, 4, 0, 1, 0, 4, 1, 6, 3, 1, 2, 3, 2, 1] 2).1[0]?
        = some ci ∧
      (combineIndexArrays [0, 1, 2, 3, 5, 4, 0, 1, 0, 4, 1, 6, 3, 1, 2, 3, 2, 1] 2).1[3]?
        = some cj ∧
      (ci = cj ↔ ∀ k, k < 2 →
        [0, 1, 2, 3, 5, 4, 0, 1, 0, 4, 1, 6, 3, 1, 2, 3, 2, 1][0 * 2 + k]?
          = [0, 1, 2, 3, 5, 4, 0, 1, 0, 4, 1, 6, 3, 1, 2, 3, 2, 1][3 * 2 + k]?)) ∧
    (∃ ci cj,
      (combineIndexArrays [0, 1, 2, 3, 5, 4, 0, 1, 0, 4, 1, 6, 3, 1, 2, 3, 2, 1] 2).1[0]?
        = some ci ∧
      (combineIndexArrays [0, 1, 2, 3, 5, 4, 0, 1, 0, 4, 1, 6, 3, 1, 2, 3, 2, 1] 2).1[4]?
        = some cj ∧
      (ci = cj ↔ ∀ k, k < 2 →
        [0, 1, 2, 3, 5, 4, 0, 1, 0, 4, 1, 6, 3, 1, 2, 3, 2, 1][0 * 2 + k]?
          = [0, 1, 2, 3, 5, 4, 0, 1, 0, 4, 1, 6, 3, 1, 2, 3, 2, 1][4 * 2 + k]?)) :=
  ⟨combineIndexArrays_dedup_exact [0, 1, 2, 3, 5, 4, 0, 1, 0, 4, 1, 6, 3, 1, 2, 3, 2, 1]
      2 9 (by decide) (by decide) 0 3 (by decide) (by decide),
    combineIndexArrays_dedup_exact [0, 1, 2, 3, 5, 4, 0, 1, 0, 4, 1, 6, 3, 1, 2, 3, 2, 1]
      2 9 (by decide) (by decide) 0 4 (by decide) (by decide)⟩

/-- C4. First-occurrence ordering of canonical ids: for an interleaved array of length
`L*N` with stride `N ≥ 1` and `U` distinct tuples, the first slots holding the ids
`0, 1, …, U-1` are strictly increasing (and all below `L`); also `combinedIndices[0] = 0`
when `L > 0`, and every later `combinedIndices[i]` is at most one more than the maximum
of `combinedIndices[0..i-1]`. -/
theorem combineIndexArrays_first_occurrence (X : List Nat) (N L : Nat) (hN : 1 ≤ N)
    (hX : X.length = L * N) :
    (∀ u v, u < v → v < distinctTuples X N →
      (combineIndexArrays X N).1.indexOf u < (combineIndexArrays X N).1.indexOf v ∧
      (combineIndexArrays X N).1.indexOf v < L) ∧
    (0 < L → (combineIndexArrays X N).1[0]? = some 0) ∧
    (∀ i ci, 0 < i → (combineIndexArrays X N).1[i]? = some ci →
      ci ≤ 1 + ((combineIndexArrays X N).1.take i).foldl max 0) := by
  obtain ⟨ts, _, _, _, hlen, hslot, hocc, hdense, hU⟩ := combineIndexArrays_tuples X N
  rw [slots_eq X N L hN hX] at hslot hocc hlen
  rw [← hU]
  generalize (combineIndexArrays X N).1 = cs at *
  refine ⟨?_, ?_, ?_⟩
  · intro u v huv hv
    obtain ⟨j, hj, hcj⟩ := hocc v hv
    have hmem : v ∈ cs := List.mem_iff_getElem?.mpr ⟨j, hcj⟩
    have hlt : cs.indexOf v < cs.length := List.indexOf_lt_length.mpr hmem
    have hget : cs[cs.indexOf v]? = some v := by
      rw [List.getElem?_eq_getElem hlt, List.getElem_indexOf hlt]
    obtain ⟨j', hj', hcj'⟩ := hdense _ v hget u huv
    refine ⟨?_, by omega⟩
    by_contra hge
    have hj'lt : j' < cs.indexOf u := by omega
    have hfalse := List.not_of_lt_findIdx hj'lt
    obtain ⟨hb, he⟩ := List.getElem?_eq_some.mp hcj'
    simp [he] at hfalse
  · intro hL
    obtain ⟨id, hid, _⟩ := hslot 0 hL
    cases id with
    | zero => exact hid
    | succ id =>
      obtain ⟨j, hj, _⟩ := hdense 0 (id + 1) hid 0 (by omega)
      omega
  · intro i ci hi hci
    cases ci with
    | zero => omega
    | succ ci =>
      obtain ⟨j, hj, hcj⟩ := hdense i (ci + 1) hci ci (by omega)
      have hmem : ci ∈ cs.take i :=
        List.mem_iff_getElem?.mpr ⟨j, by rw [List.getElem?_take_of_lt hj]; exact hcj⟩
      have := le_foldl_max (cs.take i) 0 ci (Or.inr hmem)
      omega

/-- C4 on the interleaved array of the documentation (9 slots, stride 2). -/
theorem combineIndexArrays_first_occurrence_witness :
    (∀ u v, u < v →
      v < distinctTuples [0, 1, 2, 3, 5, 4, 0, 1, 0, 4, 1, 6, 3, 1, 2, 3, 2, 1] 2 →
      (combineIndexArrays [0, 1, 2, 3, 5, 4, 0, 1, 0, 4, 1, 6, 3, 1, 2, 3, 2, 1] 2).1.indexOf u
        < (combineIndexArrays
            [0, 1, 2, 3, 5, 4, 0, 1, 0, 4, 1, 6, 3, 1, 2, 3, 2, 1] 2).1.indexOf v ∧
      (combineIndexArrays [0, 1, 2, 3, 5, 4, 0, 1, 0, 4, 1, 6, 3, 1, 2, 3, 2, 1] 2).1.indexOf v
        < 9) ∧
    (0 < 9 →
      (combineIndexArrays [0, 1, 2, 3, 5, 4, 0, 1, 0, 4, 1, 6, 3, 1, 2, 3, 2, 1] 2).1[0]?
        = some 0) ∧
    (∀ i ci, 0 < i →
      (combineIndexArrays [0, 1, 2, 3, 5, 4, 0, 1, 0, 4, 1, 6, 3, 1, 2, 3, 2, 1] 2).1[i]?
        = some ci →
      ci ≤ 1 + ((combineIndexArrays
        [0, 1, 2, 3, 5, 4, 0, 1, 0, 4, 1, 6, 3, 1, 2, 3, 2, 1] 2).1.take i).foldl max 0) :=
  combineIndexArrays_first_occurrence
    [0, 1, 2, 3, 5, 4, 0, 1, 0, 4, 1, 6, 3, 1, 2, 3, 2, 1] 2 9 (by decide) (by decide)

/-- C5. Shape of the combined index array: for an interleaved array of length `L*N` with
stride `N ≥ 1`, `combinedIndices` has length exactly `L`, every value in it is below the
number `U` of distinct tuples among the `L` slots, and every id below `U` occurs in it. -/
theorem combineIndexArrays_shape (X : List Nat) (N L : Nat) (hN : 1 ≤ N)
    (hX : X.length = L * N) :
    (combineIndexArrays X N).1.length = L ∧
    (∀ v ∈ (combineIndexArrays X N).1, v < distinctTuples X N) ∧
    (∀ u, u < distinctTuples X N → u ∈ (combineIndexArrays X N).1) := by
  obtain ⟨ts, _, _, _, hlen, hslot, hocc, _, hU⟩ := combineIndexArrays_tuples X N
  rw [slots_eq X N L hN hX] at hslot hocc hlen
  rw [← hU]
  refine ⟨hlen, ?_, ?_⟩
  · intro v hv
    obtain ⟨i, hi⟩ := List.mem_iff_getElem?.mp hv
    have hiL : i < L := hlen ▸ getElem?_lt_of_eq_some _ _ _ hi
    obtain ⟨id, hid, ht⟩ := hslot i hiL
    rw [hi] at hid
    cases hid
    exact getElem?_lt_of_eq_some _ _ _ ht
  · intro u hu
    obtain ⟨j, _, hcj⟩ := hocc u hu
    exact List.mem_iff_getElem?.mpr ⟨j, hcj⟩

/-- C5 on the interleaved array of the documentation, which has 7 distinct tuples. -/
theorem combineIndexArrays_shape_witness :
    distinctTuples [0, 1, 2, 3, 5, 4, 0, 1, 0, 4, 1, 6, 3, 1, 2, 3, 2, 1] 2 = 7 ∧
    (combineIndexArrays
      [0, 1, 2, 3, 5, 4, 0, 1, 0, 4, 1, 6, 3, 1, 2, 3, 2, 1] 2).1.length = 9 ∧
    (∀ v ∈ (combineIndexArrays [0, 1, 2, 3, 5, 4, 0, 1, 0, 4, 1, 6, 3, 1, 2, 3, 2, 1] 2).1,
      v < distinctTuples [0, 1, 2, 3, 5, 4, 0, 1, 0, 4, 1, 6, 3, 1, 2, 3, 2, 1] 2) ∧
    (∀ u, u < distinctTuples [0, 1, 2, 3, 5, 4, 0, 1, 0, 4, 1, 6, 3, 1, 2, 3, 2, 1] 2 →
      u ∈ (combineIndexArrays [0, 1, 2, 3, 5, 4, 0, 1, 0, 4, 1, 6, 3, 1, 2, 3, 2, 1] 2).1) :=
  ⟨by decide, combineIndexArrays_shape
    [0, 1, 2, 3, 5, 4, 0, 1, 0, 4, 1, 6, 3, 1, 2, 3, 2, 1] 2 9 (by decide) (by decide)⟩

end Magnum.MeshTools

namespace Magnum.MeshTools

/-- Reading a reduced array at the place of a tuple element. -/
theorem flatten_getElem? (ts : List (List Nat)) (N u k : Nat) (t : List Nat)
    (hlen : ∀ t ∈ ts, t.length = N) (h : ts[u]? = some t) (hk : k < N) :
    ts.flatten[u * N + k]? = t[k]? := by
  rw [← tupleAt_getElem? ts.flatten N u k hk, tupleAt_flatten ts N u t hlen h]

/-- The reduced interleaved array has `U` tuples and holds, at the combined index of a
slot, the tuple of that slot. -/
theorem reduced_array_facts (X : List Nat) (N L : Nat) (hN : 1 ≤ N)
    (hX : X.length = L * N) :
    (combineIndexArrays X N).2.length = distinctTuples X N * N ∧
    (∀ i k, i < L → k < N → ∃ ci x, (combineIndexArrays X N).1[i]? = some ci ∧
      X[i * N + k]? = some x ∧ (combineIndexArrays X N).2[ci * N + k]? = some x) := by
  obtain ⟨ts, _, htl, hR, _, hslot, _, _, hU⟩ := combineIndexArrays_tuples X N
  rw [slots_eq X N L hN hX] at hslot
  rw [← hU, hR]
  refine ⟨length_flatten_of_length ts N htl, ?_⟩
  intro i k hi hk
  obtain ⟨ci, hci, ht⟩ := hslot i hi
  have hpos : i * N + k < X.length := by
    have := reduced_position_lt N k L i hk hi
    omega
  refine ⟨ci, X[i * N + k], hci, List.getElem?_eq_getElem hpos, ?_⟩
  rw [flatten_getElem? ts N ci k _ htl ht hk, tupleAt_getElem? X N i k hk]
  exact List.getElem?_eq_getElem hpos

/-- C6. Content of the reduced interleaved array: for an interleaved array `X` of length
`L*N` with stride `N ≥ 1`, `combineIndexArrays` returns `(c, R)` where `R` has length
`U*N`, the `U` tuples of `R` are pairwise distinct, and `R[c[i]*N + k] = X[i*N + k]` for
every slot `i < L` and every channel `k < N`. -/
theorem combineIndexArrays_reduced (X : List Nat) (N L : Nat) (hN : 1 ≤ N)
    (hX : X.length = L * N) :
    (combineIndexArrays X N).2.length = distinctTuples X N * N ∧
    (∀ u v, u < distinctTuples X N → v < distinctTuples X N → u ≠ v →
      ¬ ∀ k, k < N →
        (combineIndexArrays X N).2[u * N + k]? = (combineIndexArrays X N).2[v * N + k]?) ∧
    (∀ i k, i < L → k < N → ∃ ci x, (combineIndexArrays X N).1[i]? = some ci ∧
      X[i * N + k]? = some x ∧ (combineIndexArrays X N).2[ci * N + k]? = some x) := by
  obtain ⟨hRlen, hcontent⟩ := reduced_array_facts X N L hN hX
  refine ⟨hRlen, ?_, hcontent⟩
  obtain ⟨ts, hnd, htl, hR, _, _, _, _, hU⟩ := combineIndexArrays_tuples X N
  rw [← hU, hR]
  intro u v hu hv huv hall
  have hget : ∀ w (hw : w < ts.length), tupleAt ts.flatten N w = ts[w] := fun w hw =>
    tupleAt_flatten ts N w _ htl (List.getElem?_eq_getElem hw)
  have heq : ts[u] = ts[v] := by
    rw [← hget u hu, ← hget v hv]
    exact (tupleAt_eq_iff _ _ N u v).mpr hall
  exact huv ((hnd.getElem_inj_iff).mp heq)

/-- C6 on the interleaved array of the documentation, with the documented outputs. -/
theorem combineIndexArrays_reduced_witness :
    combineIndexArrays [0, 1, 2, 3, 5, 4, 0, 1, 0, 4, 1, 6, 3, 1, 2, 3, 2, 1] 2
      = ([0, 1, 2, 0, 3, 4, 5, 1, 6], [0, 1, 2, 3, 5, 4, 0, 4, 1, 6, 3, 1, 2, 1]) ∧
    (combineIndexArrays [0, 1, 2, 3, 5, 4, 0, 1, 0, 4, 1, 6, 3, 1, 2, 3, 2, 1] 2).2.length
      = distinctTuples [0, 1, 2, 3, 5, 4, 0, 1, 0, 4, 1, 6, 3, 1, 2, 3, 2, 1] 2 * 2 ∧
    (∀ u v, u < distinctTuples [0, 1, 2, 3, 5, 4, 0, 1, 0, 4, 1, 6, 3, 1, 2, 3, 2, 1] 2 →
      v < distinctTuples [0, 1, 2, 3, 5, 4, 0, 1, 0, 4, 1, 6, 3, 1, 2, 3, 2, 1] 2 → u ≠ v →
      ¬ ∀ k, k < 2 →
        (combineIndexArrays
          [0, 1, 2, 3, 5, 4, 0, 1, 0, 4, 1, 6, 3, 1, 2, 3, 2, 1] 2).2[u * 2 + k]?
        = (combineIndexArrays
          [0, 1, 2, 3, 5, 4, 0, 1, 0, 4, 1, 6, 3, 1, 2, 3, 2, 1] 2).2[v * 2 + k]?) ∧
    (∀ i k, i < 9 → k < 2 → ∃ ci x,
      (combineIndexArrays [0, 1, 2, 3, 5, 4, 0, 1, 0, 4, 1, 6, 3, 1, 2, 3, 2, 1] 2).1[i]?
        = some ci ∧
      [0, 1, 2, 3, 5, 4, 0, 1, 0, 4, 1, 6, 3, 1, 2, 3, 2, 1][i * 2 + k]? = some x ∧
      (combineIndexArrays
        [0, 1, 2, 3, 5, 4, 0, 1, 0, 4, 1, 6, 3, 1, 2, 3, 2, 1] 2).2[ci * 2 + k]? = some x) :=
  ⟨by decide, combineIndexArrays_reduced
    [0, 1, 2, 3, 5, 4, 0, 1, 0, 4, 1, 6, 3, 1, 2, 3, 2, 1] 2 9 (by decide) (by decide)⟩

end Magnum.MeshTools

/-! ## The interleaver and the array-set form -/

namespace Magnum.MeshTools

/-- The interleaver on arrays of one length `L`: it succeeds, and element `k` of group
`i` is `arrays[k][i]`. -/
theorem interleave_ok (arrays : List (List Nat)) (L : Nat) (hN : 1 ≤ arrays.length)
    (hL : ∀ a ∈ arrays, a.length = L) :
    ∃ X, interleave arrays = .ok X ∧ X.length = L * arrays.length ∧
      ∀ i k, i < L → k < arrays.length → ∃ a x, arrays[k]? = some a ∧ a[i]? = some x ∧
        X[i * arrays.length + k]? = some x := by
  cases harr : arrays with
  | nil => simp [harr] at hN
  | cons first rest =>
    rw [← harr]
    have hfirst : first.length = L := hL first (by simp [harr])
    have hall : arrays.all (fun a => a.length == first.length) = true := by
      rw [List.all_eq_true]
      intro a ha
      simp [hL a ha, hfirst]
    have hrun : interleave arrays
        = .ok (((List.range L).map (fun i => arrays.map (fun a => a.getD i 0))).flatten) := by
      rw [harr] at hall ⊢
      simp only [interleave]
      rw [if_pos hall, hfirst, List.flatMap_def]
    have hgroups : ∀ t ∈ (List.range L).map (fun i => arrays.map (fun a => a.getD i 0)),
        t.length = arrays.length := by
      intro t ht
      obtain ⟨i, _, rfl⟩ := List.mem_map.mp ht
      simp
    refine ⟨_, hrun, ?_, ?_⟩
    · rw [length_flatten_of_length _ _ hgroups]
      simp
    · intro i k hi hk
      have ha : arrays[k]? = some arrays[k] := List.getElem?_eq_getElem hk
      have hal : arrays[k].length = L := hL _ (List.getElem_mem hk)
      have hi' : i < arrays[k].length := by omega
      refine ⟨arrays[k], arrays[k][i], ha, List.getElem?_eq_getElem hi', ?_⟩
      rw [flatten_getElem? _ arrays.length i k (arrays.map (fun a => a.getD i 0)) hgroups
        (by rw [List.getElem?_map, List.getElem?_range hi]; rfl) hk]
      rw [List.getElem?_map, ha]
      simp [List.getD_eq_getElem?_getD, List.getElem?_eq_getElem hi']

end Magnum.MeshTools

namespace Magnum.MeshTools

/-- C7. Array-set form of `combineIndexArrays`: for `N ≥ 1` index arrays of equal length
`L`, with `X` their interleaving (element `k` of group `i` is `arrays[k][i]`), the call
returns the combined index array of the interleaved form applied to `X`, and replaces
input array `k` by the array of length `U` whose element `u` is
`reducedInterleaved[u*N + k]`. -/
theorem combineIndexArraysRefs_reduces (arrays : List (List Nat)) (L : Nat)
    (hN : 1 ≤ arrays.length) (hL : ∀ a ∈ arrays, a.length = L) :
    ∃ X, interleave arrays = .ok X ∧ X.length = L * arrays.length ∧
      (∀ i k, i < L → k < arrays.length → ∃ a x, arrays[k]? = some a ∧ a[i]? = some x ∧
        X[i * arrays.length + k]? = some x) ∧
      (combineIndexArraysRefs arrays).returned
        = .ok (combineIndexArrays X arrays.length).1 ∧
      (combineIndexArraysRefs arrays).arrays.length = arrays.length ∧
      ∀ k, k < arrays.length → ∃ a', (combineIndexArraysRefs arrays).arrays[k]? = some a' ∧
        a'.length = distinctTuples X arrays.length ∧
        ∀ u, u < distinctTuples X arrays.length → ∃ x,
          (combineIndexArrays X arrays.length).2[u * arrays.length + k]? = some x ∧
          a'[u]? = some x := by
  obtain ⟨X, hX, hXlen, hXget⟩ := interleave_ok arrays L hN hL
  obtain ⟨hRlen, _⟩ := reduced_array_facts X arrays.length L hN hXlen
  have hdiv : (combineIndexArrays X arrays.length).2.length / arrays.length
      = distinctTuples X arrays.length := by
    rw [hRlen]; exact Nat.mul_div_cancel _ (by omega)
  have hcall : combineIndexArraysRefs arrays
      = { returned := .ok (combineIndexArrays X arrays.length).1
          arrays := (List.range arrays.length).map
            (deinterleaveColumn (combineIndexArrays X arrays.length).2 arrays.length) } := by
    simp [combineIndexArraysRefs, Implementation.interleaveAndCombineIndexArrays, hX]
  refine ⟨X, hX, hXlen, hXget, by rw [hcall], by rw [hcall]; simp, ?_⟩
  intro k hk
  refine ⟨deinterleaveColumn (combineIndexArrays X arrays.length).2 arrays.length k, ?_, ?_, ?_⟩
  · rw [hcall]
    simp only [List.getElem?_map, List.getElem?_range hk]
    rfl
  · simp [deinterleaveColumn, hdiv]
  · intro u hu
    have hpos : u * arrays.length + k < (combineIndexArrays X arrays.length).2.length := by
      have := reduced_position_lt arrays.length k _ u hk hu
      omega
    refine ⟨_, List.getElem?_eq_getElem hpos, ?_⟩
    simp only [deinterleaveColumn, hdiv, List.getElem?_map, List.getElem?_range hu]
    simp [List.getD_eq_getElem?_getD, List.getElem?_eq_getElem hpos]

/-- C7 on the index arrays of the documentation: the call returns `0 1 2 0 3 4 5 1 6`
and leaves the inputs as `0 2 5 0 1 3 2` and `1 3 4 4 6 1 1`. -/
theorem combineIndexArraysRefs_reduces_witness :
    (combineIndexArraysRefs
      [[0, 2, 5, 0, 0, 1, 3, 2, 2], [1, 3, 4, 1, 4, 6, 1, 3, 1]]).returned
      = .ok [0, 1, 2, 0, 3, 4, 5, 1, 6] ∧
    (combineIndexArraysRefs [[0, 2, 5, 0, 0, 1, 3, 2, 2], [1, 3, 4, 1, 4, 6, 1, 3, 1]]).arrays
      = [[0, 2, 5, 0, 1, 3, 2], [1, 3, 4, 4, 6, 1, 1]] ∧
    ∃ X, interleave [[0, 2, 5, 0, 0, 1, 3, 2, 2], [1, 3, 4, 1, 4, 6, 1, 3, 1]] = .ok X ∧
      X.length = 9 * [[0, 2, 5, 0, 0, 1, 3, 2, 2], [1, 3, 4, 1, 4, 6, 1, 3, 1]].length ∧
      (∀ i k, i < 9 → k < [[0, 2, 5, 0, 0, 1, 3, 2, 2], [1, 3, 4, 1, 4, 6, 1, 3, 1]].length →
        ∃ a x, [[0, 2, 5, 0, 0, 1, 3, 2, 2], [1, 3, 4, 1, 4, 6, 1, 3, 1]][k]? = some a ∧
          a[i]? = some x ∧
          X[i * [[0, 2, 5, 0, 0, 1, 3, 2, 2], [1, 3, 4, 1, 4, 6, 1, 3, 1]].length + k]?
            = some x) ∧
      (combineIndexArraysRefs
        [[0, 2, 5, 0, 0, 1, 3, 2, 2], [1, 3, 4, 1, 4, 6, 1, 3, 1]]).returned
        = .ok (combineIndexArrays X
            [[0, 2, 5, 0, 0, 1, 3, 2, 2], [1, 3, 4, 1, 4, 6, 1, 3, 1]].length).1 ∧
      (combineIndexArraysRefs
        [[0, 2, 5, 0, 0, 1, 3, 2, 2], [1, 3, 4, 1, 4, 6, 1, 3, 1]]).arrays.length
        = [[0, 2, 5, 0, 0, 1, 3, 2, 2], [1, 3, 4, 1, 4, 6, 1, 3, 1]].length ∧
      ∀ k, k < [[0, 2, 5, 0, 0, 1, 3, 2, 2], [1, 3, 4, 1, 4, 6, 1, 3, 1]].length →
        ∃ a', (combineIndexArraysRefs
            [[0, 2, 5, 0, 0, 1, 3, 2, 2], [1, 3, 4, 1, 4, 6, 1, 3, 1]]).arrays[k]? = some a' ∧
          a'.length = distinctTuples X
            [[0, 2, 5, 0, 0, 1, 3, 2, 2], [1, 3, 4, 1, 4, 6, 1, 3, 1]].length ∧
          ∀ u, u < distinctTuples X
              [[0, 2, 5, 0, 0, 1, 3, 2, 2], [1, 3, 4, 1, 4, 6, 1, 3, 1]].length → ∃ x,
            (combineIndexArrays X
              [[0, 2, 5, 0, 0, 1, 3, 2, 2], [1, 3, 4, 1, 4, 6, 1, 3, 1]].length).2[
                u * [[0, 2, 5, 0, 0, 1, 3, 2, 2], [1, 3, 4, 1, 4, 6, 1, 3, 1]].length + k]?
              = some x ∧
            a'[u]? = some x :=
  ⟨rfl, rfl, combineIndexArraysRefs_reduces
    [[0, 2, 5, 0, 0, 1, 3, 2, 2], [1, 3, 4, 1, 4, 6, 1, 3, 1]] 9 (by decide) (by decide)⟩

end Magnum.MeshTools

/-! ## The channel form: `combineIndexedArrays` -/

namespace Magnum.MeshTools

open Implementation

/-- The rewriter stops at an unchecked read when some referenced index is outside the
attribute array. -/
theorem writeCombinedArray_undefined {T : Type} (N o U : Nat) (R : List Nat) (A : List T)
    (hN : 1 ≤ N) (hR : R.length = U * N) (u index : Nat) (hu : u < U)
    (hidx : R[u * N + o]? = some index) (hge : A.length ≤ index) :
    writeCombinedArray N o R A = .error .undefinedBehaviour := by
  have hdiv : R.length / N = U := by
    rw [hR]; exact Nat.mul_div_cancel U (by omega)
  unfold writeCombinedArray
  rw [if_neg (by omega), hdiv]
  refine writeCombinedArrayLoop_fault N o R A U 0 [] u hu ?_
  intro ix hix
  rw [Nat.zero_add, Nat.add_comm, hidx] at hix
  cases hix
  exact hge

/-- Every channel is rewritten when all the reduced indices are inside their attribute
arrays: channel `k` of the pack is rewritten with offset `o + k`. -/
theorem writeCombinedArrays_ok {T : Type} (N U : Nat) (R : List Nat) (hN : 1 ≤ N)
    (hR : R.length = U * N) (arrays : List (List T)) (o : Nat)
    (ho : o + arrays.length ≤ N)
    (hin : ∀ k a, arrays[k]? = some a → ∀ u, u < U → ∀ index,
      R[u * N + (o + k)]? = some index → index < a.length) :
    ∃ out, writeCombinedArrays N o R arrays = (out, none) ∧ out.length = arrays.length ∧
      ∀ k a, arrays[k]? = some a → ∃ a', out[k]? = some a' ∧ a'.length = U ∧
        ∀ u, u < U → ∃ index x, R[u * N + (o + k)]? = some index ∧ a[index]? = some x ∧
          a'[u]? = some x := by
  induction arrays generalizing o with
  | nil => exact ⟨[], rfl, rfl, by intro k a h; simp at h⟩
  | cons first next ih =>
    simp only [List.length_cons] at ho
    obtain ⟨written, hw, hwlen, hwget⟩ :=
      writeCombinedArray_in_range N o U R first hN (by omega) hR (by
        intro u hu index hidx
        exact hin 0 first (by simp) u hu index (by simpa using hidx))
    obtain ⟨rest, hrest, hrlen, hrget⟩ := ih (o + 1) (by omega) (by
      intro k a hk u hu index hidx
      exact hin (k + 1) a (by simpa using hk) u hu index
        (by rwa [show o + (k + 1) = o + 1 + k by omega]))
    refine ⟨written :: rest, ?_, by simp [hrlen], ?_⟩
    · simp only [writeCombinedArrays, hw, hrest]
    · intro k a hk
      cases k with
      | zero =>
        simp only [List.getElem?_cons_zero, Option.some.injEq] at hk
        subst hk
        exact ⟨written, by simp, hwlen, by simpa using hwget⟩
      | succ k =>
        simp only [List.getElem?_cons_succ] at hk
        obtain ⟨a', h1, h2, h3⟩ := hrget k a hk
        refine ⟨a', by simpa using h1, h2, ?_⟩
        intro u hu
        obtain ⟨index, x, g1, g2, g3⟩ := h3 u hu
        exact ⟨index, x, by rwa [show o + (k + 1) = o + 1 + k by omega], g2, g3⟩

/-- The pack stops at the first channel `k` with a reduced index outside its attribute
array: the channels before `k` are rewritten, channel `k` and the later ones are as they
were. -/
theorem writeCombinedArrays_fault {T : Type} (N U : Nat) (R : List Nat) (hN : 1 ≤ N)
    (hR : R.length = U * N) (arrays : List (List T)) (o k : Nat)
    (ho : o + arrays.length ≤ N)
    (hbefore : ∀ j a, j < k → arrays[j]? = some a → ∀ u, u < U → ∀ index,
      R[u * N + (o + j)]? = some index → index < a.length)
    (hbad : ∃ a u index, arrays[k]? = some a ∧ u < U ∧
      R[u * N + (o + k)]? = some index ∧ a.length ≤ index) :
    ∃ out, writeCombinedArrays N o R arrays = (out, some .undefinedBehaviour) ∧
      out.length = arrays.length ∧
      (∀ j, k ≤ j → out[j]? = arrays[j]?) ∧
      ∀ j a, j < k → arrays[j]? = some a → ∃ a', out[j]? = some a' ∧ a'.length = U ∧
        ∀ u, u < U → ∃ index x, R[u * N + (o + j)]? = some index ∧ a[index]? = some x ∧
          a'[u]? = some x := by
  induction arrays generalizing o k with
  | nil =>
    obtain ⟨a, _, _, h, _⟩ := hbad
    simp at h
  | cons first next ih =>
    simp only [List.length_cons] at ho
    cases k with
    | zero =>
      obtain ⟨a, u, index, ha, hu, hidx, hge⟩ := hbad
      simp only [List.getElem?_cons_zero, Option.some.injEq] at ha
      subst ha
      have hw := writeCombinedArray_undefined N o U R first hN hR u index hu
        (by simpa using hidx) hge
      refine ⟨first :: next, ?_, rfl, by intro j _; rfl, by intro j a hj; omega⟩
      simp only [writeCombinedArrays, hw]
    | succ k =>
      obtain ⟨written, hw, hwlen, hwget⟩ :=
        writeCombinedArray_in_range N o U R first hN (by omega) hR (by
          intro u hu index hidx
          exact hbefore 0 first (by omega) (by simp) u hu index (by simpa using hidx))
      obtain ⟨rest, hrest, hrlen, hrafter, hrget⟩ := ih (o + 1) k (by omega) (by
          intro j a hj hja u hu index hidx
          exact hbefore (j + 1) a (by omega) (by simpa using hja) u hu index
            (by rwa [show o + (j + 1) = o + 1 + j by omega])) (by
          obtain ⟨a, u, index, ha, hu, hidx, hge⟩ := hbad
          exact ⟨a, u, index, by simpa using ha, hu,
            by rwa [show o + (k + 1) = o + 1 + k by omega] at hidx, hge⟩)
      refine ⟨written :: rest, ?_, by simp [hrlen], ?_, ?_⟩
      · simp only [writeCombinedArrays, hw, hrest]
      · intro j hj
        cases j with
        | zero => omega
        | succ j => simpa using hrafter j (by omega)
      · intro j a hj hja
        cases j with
        | zero =>
          simp only [List.getElem?_cons_zero, Option.some.injEq] at hja
          subst hja
          exact ⟨written, by simp, hwlen, by simpa using hwget⟩
        | succ j =>
          simp only [List.getElem?_cons_succ] at hja
          obtain ⟨a', h1, h2, h3⟩ := hrget j a (by omega) hja
          refine ⟨a', by simpa using h1, h2, ?_⟩
          intro u hu
          obtain ⟨index, x, g1, g2, g3⟩ := h3 u hu
          exact ⟨index, x, by rwa [show o + (j + 1) = o + 1 + j by omega], g2, g3⟩

end Magnum.MeshTools

namespace Magnum.MeshTools

open Implementation

/-- The first stage of `combineIndexedArrays` on `N ≥ 1` channels whose index arrays have
one length `L`: the interleaving `X` exists, element `k` of its group `i` is the index
`I_k[i]`, and the deduplicator runs on `X` with stride `N`. -/
theorem interleaveAndCombine_channels {T : Type} (channels : List (List Nat × List T))
    (L : Nat) (hN : 1 ≤ channels.length) (hL : ∀ ch ∈ channels, ch.1.length = L) :
    ∃ X, interleave (channels.map Prod.fst) = .ok X ∧ X.length = L * channels.length ∧
      (∀ i k ch, i < L → channels[k]? = some ch → ∃ x, ch.1[i]? = some x ∧
        X[i * channels.length + k]? = some x) ∧
      interleaveAndCombineIndexArrays (channels.map Prod.fst)
        = .ok (combineIndexArrays X channels.length) := by
  obtain ⟨X, hX, hXlen, hXget⟩ := interleave_ok (channels.map Prod.fst) L
    (by simpa using hN) (by
      intro a ha
      obtain ⟨ch, hch, rfl⟩ := List.mem_map.mp ha
      exact hL ch hch)
  rw [List.length_map] at hXlen
  refine ⟨X, hX, hXlen, ?_, ?_⟩
  · intro i k ch hi hk
    have hklt : k < channels.length := getElem?_lt_of_eq_some _ _ _ hk
    obtain ⟨a, x, h1, h2, h3⟩ := hXget i k hi (by simpa using hklt)
    rw [List.getElem?_map, hk] at h1
    cases h1
    rw [List.length_map] at h3
    exact ⟨x, h2, h3⟩
  · simp [interleaveAndCombineIndexArrays, hX]

/-- Every reduced index of column `k` is a value of the index array of channel `k`. -/
theorem reduced_index_of_channel {T : Type} (channels : List (List Nat × List T))
    (L : Nat) (hN : 1 ≤ channels.length) (X : List Nat)
    (hXlen : X.length = L * channels.length)
    (hXget : ∀ i k ch, i < L → channels[k]? = some ch → ∃ x, ch.1[i]? = some x ∧
        X[i * channels.length + k]? = some x)
    (k : Nat) (ch : List Nat × List T) (hk : channels[k]? = some ch) (u index : Nat)
    (hu : u < distinctTuples X channels.length)
    (hidx : (combineIndexArrays X channels.length).2[u * channels.length + k]? = some index) :
    ∃ i, i < L ∧ ch.1[i]? = some index := by
  have hklt : k < channels.length := getElem?_lt_of_eq_some _ _ _ hk
  obtain ⟨ts, _, _, _, _, _, hocc, _, hU⟩ := combineIndexArrays_tuples X channels.length
  rw [slots_eq X channels.length L hN hXlen] at hocc
  obtain ⟨j, hj, hcj⟩ := hocc u (by omega)
  obtain ⟨_, hred⟩ := reduced_array_facts X channels.length L hN hXlen
  obtain ⟨ci, x, h1, h2, h3⟩ := hred j k hj hklt
  rw [hcj] at h1
  cases h1
  rw [hidx] at h3
  cases h3
  obtain ⟨y, g1, g2⟩ := hXget j k ch hj hk
  rw [h2] at g2
  cases g2
  exact ⟨j, hj, g1⟩

/-- The channel form on valid channels: the call returns the combined index array of the
interleaved index arrays, and channel `k` is left with the array of length `U` whose
element `u` is `A_k[R[u*N + k]]`. -/
theorem combineIndexedArrays_ok {T : Type} (channels : List (List Nat × List T))
    (L : Nat) (hN : 1 ≤ channels.length) (hL : ∀ ch ∈ channels, ch.1.length = L)
    (hin : ∀ ch ∈ channels, ∀ v ∈ ch.1, v < ch.2.length) :
    ∃ X, interleave (channels.map Prod.fst) = .ok X ∧ X.length = L * channels.length ∧
      (∀ i k ch, i < L → channels[k]? = some ch → ∃ x, ch.1[i]? = some x ∧
        X[i * channels.length + k]? = some x) ∧
      (combineIndexedArrays channels).returned
        = .ok (combineIndexArrays X channels.length).1 ∧
      (combineIndexedArrays channels).arrays.length = channels.length ∧
      ∀ k ch, channels[k]? = some ch →
        ∃ A', (combineIndexedArrays channels).arrays[k]? = some A' ∧
          A'.length = distinctTuples X channels.length ∧
          ∀ u, u < distinctTuples X channels.length → ∃ index x,
            (combineIndexArrays X channels.length).2[u * channels.length + k]? = some index ∧
            ch.2[index]? = some x ∧ A'[u]? = some x := by
  obtain ⟨X, hX, hXlen, hXget, hfirst⟩ := interleaveAndCombine_channels channels L hN hL
  obtain ⟨hRlen, _⟩ := reduced_array_facts X channels.length L hN hXlen
  obtain ⟨out, hout, holen, hoget⟩ := writeCombinedArrays_ok channels.length
    (distinctTuples X channels.length) (combineIndexArrays X channels.length).2 hN hRlen
    (channels.map Prod.snd) 0 (by simp) (by
      intro k a hk u hu index hidx
      rw [List.getElem?_map] at hk
      cases hch : channels[k]? with
      | none => rw [hch] at hk; cases hk
      | some ch =>
        rw [hch] at hk
        cases hk
        rw [Nat.zero_add] at hidx
        obtain ⟨i, _, hi⟩ := reduced_index_of_channel channels L hN X hXlen hXget k ch hch
          u index hu hidx
        exact hin ch (List.mem_iff_getElem?.mpr ⟨k, hch⟩) index
          (List.mem_iff_getElem?.mpr ⟨i, hi⟩))
  have hcall : combineIndexedArrays channels
      = { returned := .ok (combineIndexArrays X channels.length).1, arrays := out } := by
    simp only [combineIndexedArrays, hfirst, hout]
  refine ⟨X, hX, hXlen, hXget, by rw [hcall], by rw [hcall]; simpa using holen, ?_⟩
  intro k ch hk
  obtain ⟨A', h1, h2, h3⟩ := hoget k ch.2 (by rw [List.getElem?_map, hk]; rfl)
  refine ⟨A', by rw [hcall]; exact h1, h2, ?_⟩
  intro u hu
  obtain ⟨index, x, g1, g2, g3⟩ := h3 u hu
  exact ⟨index, x, by rwa [Nat.zero_add] at g1, g2, g3⟩

end Magnum.MeshTools

namespace Magnum.MeshTools

open Implementation

/-- The combined index of a slot is below `U` and, in every column `k`, the reduced array
holds there the index `I_k[i]` of the slot. -/
theorem combined_index_of_slot {T : Type} (channels : List (List Nat × List T))
    (L : Nat) (hN : 1 ≤ channels.length) (X : List Nat)
    (hXlen : X.length = L * channels.length)
    (hXget : ∀ i k ch, i < L → channels[k]? = some ch → ∃ x, ch.1[i]? = some x ∧
        X[i * channels.length + k]? = some x)
    (i : Nat) (hi : i < L) :
    ∃ ci, (combineIndexArrays X channels.length).1[i]? = some ci ∧
      ci < distinctTuples X channels.length ∧
      ∀ k ch, channels[k]? = some ch → ∃ x, ch.1[i]? = some x ∧
        (combineIndexArrays X channels.length).2[ci * channels.length + k]? = some x := by
  obtain ⟨ts, _, _, _, _, hslot, _, _, hU⟩ := combineIndexArrays_tuples X channels.length
  rw [slots_eq X channels.length L hN hXlen] at hslot
  obtain ⟨ci, hci, hts⟩ := hslot i hi
  have hlt := getElem?_lt_of_eq_some _ _ _ hts
  refine ⟨ci, hci, by omega, ?_⟩
  intro k ch hk
  have hklt : k < channels.length := getElem?_lt_of_eq_some _ _ _ hk
  obtain ⟨_, hred⟩ := reduced_array_facts X channels.length L hN hXlen
  obtain ⟨ci', x, h1, h2, h3⟩ := hred i k hi hklt
  rw [hci] at h1
  cases h1
  obtain ⟨y, g1, g2⟩ := hXget i k ch hi hk
  rw [h2] at g2
  cases g2
  exact ⟨x, g1, h3⟩

/-- C1. Round trip of `combineIndexedArrays`: for `N ≥ 1` channels whose index arrays
`I_k` have one length `L` and whose attribute arrays `A_k` are longer than every value of
`I_k`, the call returns a combined index array `c` of length `L`, and the attribute array
`A'_k` of channel `k` after the call has `A'_k[c[i]] = A_k[I_k[i]]` for every channel `k`
and every slot `i < L`. -/
theorem combineIndexedArrays_round_trip {T : Type} (channels : List (List Nat × List T))
    (L : Nat) (hN : 1 ≤ channels.length) (hL : ∀ ch ∈ channels, ch.1.length = L)
    (hin : ∀ ch ∈ channels, ∀ v ∈ ch.1, v < ch.2.length) :
    ∃ cs, (combineIndexedArrays channels).returned = .ok cs ∧ cs.length = L ∧
      ∀ k i, k < channels.length → i < L → ∃ ch A' ci index a,
        channels[k]? = some ch ∧ (combineIndexedArrays channels).arrays[k]? = some A' ∧
        cs[i]? = some ci ∧ ch.1[i]? = some index ∧ ch.2[index]? = some a ∧
        A'[ci]? = some a := by
  obtain ⟨X, _, hXlen, hXget, hret, _, hrew⟩ := combineIndexedArrays_ok channels L hN hL hin
  obtain ⟨_, _, _, _, hlen, _⟩ := combineIndexArrays_tuples X channels.length
  rw [slots_eq X channels.length L hN hXlen] at hlen
  refine ⟨_, hret, hlen, ?_⟩
  intro k i hk hi
  have hch : channels[k]? = some channels[k] := List.getElem?_eq_getElem hk
  obtain ⟨ci, hci, hciU, hcol⟩ := combined_index_of_slot channels L hN X hXlen hXget i hi
  obtain ⟨index, hidx, hR⟩ := hcol k _ hch
  obtain ⟨A', hA', _, hget⟩ := hrew k _ hch
  obtain ⟨index', a, g1, g2, g3⟩ := hget ci hciU
  rw [hR] at g1
  cases g1
  exact ⟨channels[k], A', ci, index, a, hch, hA', hci, hidx, g2, g3⟩

/-- C1 on the mesh of the documentation: positions `a..f` and normals `A..G`. -/
theorem combineIndexedArrays_round_trip_witness :
    (combineIndexedArrays
      [([0, 2, 5, 0, 0, 1, 3, 2, 2], ['a', 'b', 'c', 'd', 'e', 'f']),
       ([1, 3, 4, 1, 4, 6, 1, 3, 1], ['A', 'B', 'C', 'D', 'E', 'F', 'G'])]).arrays
      = [['a', 'c', 'f', 'a', 'b', 'd', 'c'], ['B', 'D', 'E', 'E', 'G', 'B', 'B']] ∧
    ∃ cs, (combineIndexedArrays
        [([0, 2, 5, 0, 0, 1, 3, 2, 2], ['a', 'b', 'c', 'd', 'e', 'f']),
         ([1, 3, 4, 1, 4, 6, 1, 3, 1], ['A', 'B', 'C', 'D', 'E', 'F', 'G'])]).returned
        = .ok cs ∧ cs.length = 9 ∧
      ∀ k i, k < [([0, 2, 5, 0, 0, 1, 3, 2, 2], ['a', 'b', 'c', 'd', 'e', 'f']),
          ([1, 3, 4, 1, 4, 6, 1, 3, 1], ['A', 'B', 'C', 'D', 'E', 'F', 'G'])].length →
        i < 9 → ∃ ch A' ci index a,
        [([0, 2, 5, 0, 0, 1, 3, 2, 2], ['a', 'b', 'c', 'd', 'e', 'f']),
          ([1, 3, 4, 1, 4, 6, 1, 3, 1], ['A', 'B', 'C', 'D', 'E', 'F', 'G'])][k]?
          = some ch ∧
        (combineIndexedArrays
          [([0, 2, 5, 0, 0, 1, 3, 2, 2], ['a', 'b', 'c', 'd', 'e', 'f']),
           ([1, 3, 4, 1, 4, 6, 1, 3, 1], ['A', 'B', 'C', 'D', 'E', 'F', 'G'])]).arrays[k]?
          = some A' ∧
        cs[i]? = some ci ∧ ch.1[i]? = some index ∧ ch.2[index]? = some a ∧
        A'[ci]? = some a :=
  ⟨rfl, combineIndexedArrays_round_trip
    [([0, 2, 5, 0, 0, 1, 3, 2, 2], ['a', 'b', 'c', 'd', 'e', 'f']),
     ([1, 3, 4, 1, 4, 6, 1, 3, 1], ['A', 'B', 'C', 'D', 'E', 'F', 'G'])] 9
    (by decide) (by decide) (by decide)⟩

/-- C8. The combined index array is valid for every rewritten attribute array: for
`N ≥ 1` channels of common index length `L` and in-range indices, the call returns a
combined index array, all attribute arrays after the call have the same length `U` (the
number of distinct tuples of the interleaved index arrays), and every combined index is
strictly below the length of every one of them. -/
theorem combineIndexedArrays_indices_valid {T : Type}
    (channels : List (List Nat × List T)) (L : Nat) (hN : 1 ≤ channels.length)
    (hL : ∀ ch ∈ channels, ch.1.length = L)
    (hin : ∀ ch ∈ channels, ∀ v ∈ ch.1, v < ch.2.length) :
    ∃ cs X, (combineIndexedArrays channels).returned = .ok cs ∧
      interleave (channels.map Prod.fst) = .ok X ∧
      (combineIndexedArrays channels).arrays.length = channels.length ∧
      ∀ A' ∈ (combineIndexedArrays channels).arrays,
        A'.length = distinctTuples X channels.length ∧ ∀ v ∈ cs, v < A'.length := by
  obtain ⟨X, hX, hXlen, hXget, hret, halen, hrew⟩ :=
    combineIndexedArrays_ok channels L hN hL hin
  obtain ⟨_, _, _, _, hlen, _⟩ := combineIndexArrays_tuples X channels.length
  rw [slots_eq X channels.length L hN hXlen] at hlen
  refine ⟨_, X, hret, hX, halen, ?_⟩
  intro A' hA'
  obtain ⟨k, hk⟩ := List.mem_iff_getElem?.mp hA'
  have hklt : k < channels.length := halen ▸ getElem?_lt_of_eq_some _ _ _ hk
  obtain ⟨A'', h1, h2, _⟩ := hrew k channels[k] (List.getElem?_eq_getElem hklt)
  rw [hk] at h1
  cases h1
  refine ⟨h2, ?_⟩
  intro v hv
  obtain ⟨i, hi⟩ := List.mem_iff_getElem?.mp hv
  have hiL : i < L := hlen ▸ getElem?_lt_of_eq_some _ _ _ hi
  obtain ⟨ci, hci, hciU, _⟩ := combined_index_of_slot channels L hN X hXlen hXget i hiL
  rw [hi] at hci
  cases hci
  omega

/-- C8 on the mesh of the documentation. -/
theorem combineIndexedArrays_indices_valid_witness :
    ∃ cs X, (combineIndexedArrays
        [([0, 2, 5, 0, 0, 1, 3, 2, 2], ['a', 'b', 'c', 'd', 'e', 'f']),
         ([1, 3, 4, 1, 4, 6, 1, 3, 1], ['A', 'B', 'C', 'D', 'E', 'F', 'G'])]).returned
        = .ok cs ∧
      interleave ([([0, 2, 5, 0, 0, 1, 3, 2, 2], ['a', 'b', 'c', 'd', 'e', 'f']),
         ([1, 3, 4, 1, 4, 6, 1, 3, 1], ['A', 'B', 'C', 'D', 'E', 'F', 'G'])].map Prod.fst)
        = .ok X ∧
      (combineIndexedArrays
        [([0, 2, 5, 0, 0, 1, 3, 2, 2], ['a', 'b', 'c', 'd', 'e', 'f']),
         ([1, 3, 4, 1, 4, 6, 1, 3, 1], ['A', 'B', 'C', 'D', 'E', 'F', 'G'])]).arrays.length
        = [([0, 2, 5, 0, 0, 1, 3, 2, 2], ['a', 'b', 'c', 'd', 'e', 'f']),
         ([1, 3, 4, 1, 4, 6, 1, 3, 1], ['A', 'B', 'C', 'D', 'E', 'F', 'G'])].length ∧
      ∀ A' ∈ (combineIndexedArrays
        [([0, 2, 5, 0, 0, 1, 3, 2, 2], ['a', 'b', 'c', 'd', 'e', 'f']),
         ([1, 3, 4, 1, 4, 6, 1, 3, 1], ['A', 'B', 'C', 'D', 'E', 'F', 'G'])]).arrays,
        A'.length = distinctTuples X
          [([0, 2, 5, 0, 0, 1, 3, 2, 2], ['a', 'b', 'c', 'd', 'e', 'f']),
           ([1, 3, 4, 1, 4, 6, 1, 3, 1], ['A', 'B', 'C', 'D', 'E', 'F', 'G'])].length ∧
        ∀ v ∈ cs, v < A'.length :=
  combineIndexedArrays_indices_valid
    [([0, 2, 5, 0, 0, 1, 3, 2, 2], ['a', 'b', 'c', 'd', 'e', 'f']),
     ([1, 3, 4, 1, 4, 6, 1, 3, 1], ['A', 'B', 'C', 'D', 'E', 'F', 'G'])] 9
    (by decide) (by decide) (by decide)

end Magnum.MeshTools

namespace Magnum.MeshTools

open Implementation

/-- C10, as the claim states it, fails: the second channel addresses element 5 of a
one-element attribute array, and the first channel's attribute array `a b` has already
been replaced by `a` when the call stops. -/
theorem combineIndexedArrays_not_atomic :
    ¬ ((∃ ch ∈ [([0, 0], ['a', 'b']), ([5, 5], ['x'])], ∃ v ∈ ch.1, ch.2.length ≤ v) →
      (combineIndexedArrays [([0, 0], ['a', 'b']), ([5, 5], ['x'])]).arrays
        = [([0, 0], ['a', 'b']), ([5, 5], ['x'])].map Prod.snd) := by
  intro h
  have hsame := h ⟨([5, 5], ['x']), by simp, 5, by simp, by decide⟩
  have hrun : (combineIndexedArrays [([0, 0], ['a', 'b']), ([5, 5], ['x'])]).arrays
      = [['a'], ['x']] := rfl
  rw [hrun] at hsame
  exact absurd hsame (by decide)

/-- C10, amended. `combineIndexedArrays` checks no index and reports no error.  On `N ≥ 1`
channels of common index length `L`, when channel `k` is the first whose index array
addresses beyond its attribute array, the call runs into the undefined behaviour of an
unchecked read while rewriting channel `k`; at that point the attribute array of channel
`k` and of every later channel is equal to its value before the call, and every channel
before `k` has already been replaced by its rewritten array of length `U`. -/
theorem combineIndexedArrays_stops_at_first_bad_channel {T : Type}
    (channels : List (List Nat × List T)) (L k : Nat) (hN : 1 ≤ channels.length)
    (hL : ∀ ch ∈ channels, ch.1.length = L)
    (hbefore : ∀ j ch, j < k → channels[j]? = some ch → ∀ v ∈ ch.1, v < ch.2.length)
    (hbad : ∃ ch v, channels[k]? = some ch ∧ v ∈ ch.1 ∧ ch.2.length ≤ v) :
    (combineIndexedArrays channels).returned = .error .undefinedBehaviour ∧
    (combineIndexedArrays channels).arrays.length = channels.length ∧
    (∀ j ch, k ≤ j → channels[j]? = some ch →
      (combineIndexedArrays channels).arrays[j]? = some ch.2) ∧
    ∃ X, interleave (channels.map Prod.fst) = .ok X ∧
      ∀ j ch, j < k → channels[j]? = some ch →
        ∃ A', (combineIndexedArrays channels).arrays[j]? = some A' ∧
          A'.length = distinctTuples X channels.length ∧
          ∀ u, u < distinctTuples X channels.length → ∃ index x,
            (combineIndexArrays X channels.length).2[u * channels.length + j]? = some index ∧
            ch.2[index]? = some x ∧ A'[u]? = some x := by
  obtain ⟨X, hX, hXlen, hXget, hfirst⟩ := interleaveAndCombine_channels channels L hN hL
  obtain ⟨hRlen, _⟩ := reduced_array_facts X channels.length L hN hXlen
  obtain ⟨out, hout, holen, hafter, hrew⟩ := writeCombinedArrays_fault channels.length
    (distinctTuples X channels.length) (combineIndexArrays X channels.length).2 hN hRlen
    (channels.map Prod.snd) 0 k (by simp) (by
      intro j a hj hja u hu index hidx
      rw [List.getElem?_map] at hja
      cases hch : channels[j]? with
      | none => rw [hch] at hja; cases hja
      | some ch =>
        rw [hch] at hja
        cases hja
        rw [Nat.zero_add] at hidx
        obtain ⟨i, _, hi⟩ := reduced_index_of_channel channels L hN X hXlen hXget j ch hch
          u index hu hidx
        exact hbefore j ch hj hch index (List.mem_iff_getElem?.mpr ⟨i, hi⟩)) (by
      obtain ⟨ch, v, hch, hv, hge⟩ := hbad
      obtain ⟨i, hi⟩ := List.mem_iff_getElem?.mp hv
      have hiL : i < L :=
        hL ch (List.mem_iff_getElem?.mpr ⟨k, hch⟩) ▸ getElem?_lt_of_eq_some _ _ _ hi
      obtain ⟨ci, _, hciU, hcol⟩ := combined_index_of_slot channels L hN X hXlen hXget i hiL
      obtain ⟨x, g1, g2⟩ := hcol k ch hch
      rw [hi] at g1
      cases g1
      exact ⟨ch.2, ci, v, by rw [List.getElem?_map, hch]; rfl, hciU,
        by rwa [Nat.zero_add], hge⟩)
  have hcall : combineIndexedArrays channels
      = { returned := .error .undefinedBehaviour, arrays := out } := by
    simp only [combineIndexedArrays, hfirst, hout]
  refine ⟨by rw [hcall], by rw [hcall]; simpa using holen, ?_, X, hX, ?_⟩
  · intro j ch hj hch
    rw [hcall]
    simp only
    rw [hafter j hj, List.getElem?_map, hch]
    rfl
  · intro j ch hj hch
    obtain ⟨A', h1, h2, h3⟩ := hrew j ch.2 hj (by rw [List.getElem?_map, hch]; rfl)
    refine ⟨A', by rw [hcall]; exact h1, h2, ?_⟩
    intro u hu
    obtain ⟨index, x, g1, g2, g3⟩ := h3 u hu
    exact ⟨index, x, by rwa [Nat.zero_add] at g1, g2, g3⟩

/-- C10, amended, on two channels of which the second addresses element 5 of a
one-element attribute array: the first channel is left rewritten, the second untouched. -/
theorem combineIndexedArrays_stops_at_first_bad_channel_witness :
    (combineIndexedArrays [([0, 0], ['a', 'b']), ([5, 5], ['x'])]).arrays
      = [['a'], ['x']] ∧
    (combineIndexedArrays [([0, 0], ['a', 'b']), ([5, 5], ['x'])]).returned
      = .error .undefinedBehaviour ∧
    (combineIndexedArrays [([0, 0], ['a', 'b']), ([5, 5], ['x'])]).arrays.length
      = [([0, 0], ['a', 'b']), ([5, 5], ['x'])].length ∧
    (∀ j ch, 1 ≤ j → [([0, 0], ['a', 'b']), ([5, 5], ['x'])][j]? = some ch →
      (combineIndexedArrays [([0, 0], ['a', 'b']), ([5, 5], ['x'])]).arrays[j]?
        = some ch.2) ∧
    ∃ X, interleave ([([0, 0], ['a', 'b']), ([5, 5], ['x'])].map Prod.fst) = .ok X ∧
      ∀ j ch, j < 1 → [([0, 0], ['a', 'b']), ([5, 5], ['x'])][j]? = some ch →
        ∃ A', (combineIndexedArrays [([0, 0], ['a', 'b']), ([5, 5], ['x'])]).arrays[j]?
            = some A' ∧
          A'.length
            = distinctTuples X [([0, 0], ['a', 'b']), ([5, 5], ['x'])].length ∧
          ∀ u, u < distinctTuples X [([0, 0], ['a', 'b']), ([5, 5], ['x'])].length →
            ∃ index x,
            (combineIndexArrays X [([0, 0], ['a', 'b']), ([5, 5], ['x'])].length).2[
              u * [([0, 0], ['a', 'b']), ([5, 5], ['x'])].length + j]? = some index ∧
            ch.2[index]? = some x ∧ A'[u]? = some x :=
  ⟨rfl, combineIndexedArrays_stops_at_first_bad_channel
    [([0, 0], ['a', 'b']), ([5, 5], ['x'])] 2 1 (by decide) (by decide)
    (by
      intro j ch hj hch v hv
      have hj0 : j = 0 := by omega
      subst hj0
      simp only [List.getElem?_cons_zero, Option.some.injEq] at hch
      subst hch
      simp only [List.mem_cons, List.mem_singleton, or_self, List.not_mem_nil,
        or_false] at hv
      subst hv
      decide)
    ⟨([5, 5], ['x']), 5, rfl, by simp, by decide⟩⟩

end Magnum.MeshTools

/-! ## The rewriter reads one column -/

namespace Magnum.MeshTools

open Implementation

/-- Two runs of the loop over the same attribute array agree when they read the same
reduced indices turn by turn. -/
theorem writeCombinedArrayLoop_congr {T : Type} (s o s' o' : Nat) (R R' : List Nat)
    (A : List T) (n i : Nat) (output : List T)
    (h : ∀ j, j < n → R[o + (i + j) * s]? = R'[o' + (i + j) * s']?) :
    writeCombinedArrayLoop s o R A n i output
      = writeCombinedArrayLoop s' o' R' A n i output := by
  induction n generalizing i output with
  | zero => rfl
  | succ n ih =>
    have h0 := h 0 (by omega)
    simp only [Nat.add_zero] at h0
    unfold writeCombinedArrayLoop
    rw [h0]
    cases R'[o' + i * s']? with
    | none => rfl
    | some index =>
      simp only
      cases A[index]? with
      | none => rfl
      | some value =>
        simp only
        exact ih (i + 1) _ (by
          intro j hj
          have := h (j + 1) (by omega)
          rwa [show i + (j + 1) = i + 1 + j by omega] at this)

theorem deinterleaveColumn_length (R : List Nat) (N k : Nat) :
    (deinterleaveColumn R N k).length = R.length / N := by
  simp [deinterleaveColumn]

/-- Element `u` of a column is the reduced index at `u*N + k`. -/
theorem deinterleaveColumn_getElem? (R : List Nat) (N k u : Nat) (hk : k < N)
    (hu : u < R.length / N) : (deinterleaveColumn R N k)[u]? = R[u * N + k]? := by
  have hpos : u * N + k < R.length := by
    have h1 := slot_end_le R N u hu
    have h2 : (u + 1) * N = u * N + N := by ring
    omega
  simp only [deinterleaveColumn, List.getElem?_map, List.getElem?_range hu]
  simp [List.getD_eq_getElem?_getD, List.getElem?_eq_getElem hpos]

/-- C19. Column independence of `writeCombinedArray`: with stride `N ≥ 1` and offset
`o < N`, two reduced arrays of the same length that agree at every position congruent to
`o` modulo `N` give the same result for every attribute array. -/
theorem writeCombinedArray_column_independence {T : Type} (N o : Nat) (R R' : List Nat)
    (A : List T) (hN : 1 ≤ N) (ho : o < N) (hlen : R.length = R'.length)
    (hagree : ∀ p, p % N = o → R[p]? = R'[p]?) :
    writeCombinedArray N o R A = writeCombinedArray N o R' A := by
  unfold writeCombinedArray
  rw [if_neg (by omega), if_neg (by omega), ← hlen]
  apply writeCombinedArrayLoop_congr
  intro j _
  apply hagree
  rw [Nat.add_mul_mod_self_right]
  exact Nat.mod_eq_of_lt ho

/-- C19 on two reduced arrays of stride 2 that differ in column 1 only. -/
theorem writeCombinedArray_column_independence_witness :
    writeCombinedArray 2 0 [0, 9, 1, 9] ['a', 'b']
      = writeCombinedArray 2 0 [0, 7, 1, 8] ['a', 'b'] ∧
    writeCombinedArray 2 0 [0, 7, 1, 8] ['a', 'b'] = .ok ['a', 'b'] :=
  ⟨writeCombinedArray_column_independence 2 0 [0, 9, 1, 9] [0, 7, 1, 8] ['a', 'b']
    (by decide) (by decide) (by decide) (by
      intro p hp
      rcases p with _ | _ | _ | _ | p
      · rfl
      · simp at hp
      · rfl
      · simp at hp
      · simp), rfl⟩

/-- C17. Interleaved and de-interleaved rewriting agree: with stride `N ≥ 1`, offset
`o < N` and a reduced array `R` of length `U*N`, `writeCombinedArray(N, o, R, A)` gives
what `writeCombinedArray(1, 0, R_o, A)` gives, `R_o` being the column
`R[o], R[N + o], …, R[(U-1)*N + o]` of length `U`; with in-range indices both end
normally with an attribute array of length `U`. -/
theorem writeCombinedArray_deinterleaved {T : Type} (N o U : Nat) (R : List Nat)
    (A : List T) (hN : 1 ≤ N) (ho : o < N) (hR : R.length = U * N) :
    (deinterleaveColumn R N o).length = U ∧
    (∀ u, u < U → (deinterleaveColumn R N o)[u]? = R[u * N + o]?) ∧
    writeCombinedArray N o R A = writeCombinedArray 1 0 (deinterleaveColumn R N o) A ∧
    ((∀ u, u < U → ∀ index, R[u * N + o]? = some index → index < A.length) →
      ∃ A', writeCombinedArray N o R A = .ok A' ∧
        writeCombinedArray 1 0 (deinterleaveColumn R N o) A = .ok A' ∧ A'.length = U) := by
  have hdiv : R.length / N = U := by
    rw [hR]; exact Nat.mul_div_cancel U (by omega)
  have hcol : ∀ u, u < U → (deinterleaveColumn R N o)[u]? = R[u * N + o]? := fun u hu =>
    deinterleaveColumn_getElem? R N o u ho (by omega)
  have hsame : writeCombinedArray N o R A
      = writeCombinedArray 1 0 (deinterleaveColumn R N o) A := by
    unfold writeCombinedArray
    rw [if_neg (by omega), if_neg (by omega), Nat.div_one, deinterleaveColumn_length, hdiv]
    apply writeCombinedArrayLoop_congr
    intro j hj
    rw [Nat.zero_add, Nat.zero_add, Nat.mul_one, hcol j hj, Nat.add_comm]
  refine ⟨by rw [deinterleaveColumn_length, hdiv], hcol, hsame, ?_⟩
  intro hin
  obtain ⟨A', h1, h2, _⟩ := writeCombinedArray_in_range N o U R A hN ho hR hin
  exact ⟨A', h1, hsame ▸ h1, h2⟩

/-- C17 on the reduced array of the documentation and its column of position indices. -/
theorem writeCombinedArray_deinterleaved_witness :
    deinterleaveColumn [0, 1, 2, 3, 5, 4, 0, 4, 1, 6, 3, 1, 2, 1] 2 0
      = [0, 2, 5, 0, 1, 3, 2] ∧
    writeCombinedArray 1 0 [0, 2, 5, 0, 1, 3, 2] ['a', 'b', 'c', 'd', 'e', 'f']
      = .ok ['a', 'c', 'f', 'a', 'b', 'd', 'c'] ∧
    (deinterleaveColumn [0, 1, 2, 3, 5, 4, 0, 4, 1, 6, 3, 1, 2, 1] 2 0).length = 7 ∧
    (∀ u, u < 7 → (deinterleaveColumn [0, 1, 2, 3, 5, 4, 0, 4, 1, 6, 3, 1, 2, 1] 2 0)[u]?
      = [0, 1, 2, 3, 5, 4, 0, 4, 1, 6, 3, 1, 2, 1][u * 2 + 0]?) ∧
    writeCombinedArray 2 0 [0, 1, 2, 3, 5, 4, 0, 4, 1, 6, 3, 1, 2, 1]
        ['a', 'b', 'c', 'd', 'e', 'f']
      = writeCombinedArray 1 0
        (deinterleaveColumn [0, 1, 2, 3, 5, 4, 0, 4, 1, 6, 3, 1, 2, 1] 2 0)
        ['a', 'b', 'c', 'd', 'e', 'f'] ∧
    ((∀ u, u < 7 → ∀ index,
        [0, 1, 2, 3, 5, 4, 0, 4, 1, 6, 3, 1, 2, 1][u * 2 + 0]? = some index →
        index < ['a', 'b', 'c', 'd', 'e', 'f'].length) →
      ∃ A', writeCombinedArray 2 0 [0, 1, 2, 3, 5, 4, 0, 4, 1, 6, 3, 1, 2, 1]
          ['a', 'b', 'c', 'd', 'e', 'f'] = .ok A' ∧
        writeCombinedArray 1 0
          (deinterleaveColumn [0, 1, 2, 3, 5, 4, 0, 4, 1, 6, 3, 1, 2, 1] 2 0)
          ['a', 'b', 'c', 'd', 'e', 'f'] = .ok A' ∧ A'.length = 7) :=
  ⟨by decide, rfl, writeCombinedArray_deinterleaved 2 0 7
    [0, 1, 2, 3, 5, 4, 0, 4, 1, 6, 3, 1, 2, 1] ['a', 'b', 'c', 'd', 'e', 'f']
    (by decide) (by decide) (by decide)⟩

end Magnum.MeshTools

/-! ## Which calls of the rewriter are made, and what they read -/

namespace Magnum.MeshTools

open Implementation

/-- Every read `offset + i*stride` of the loop is inside the reduced array, whatever its
length, when the offset is below the stride. -/
theorem read_position_lt (R : List Nat) (N o i : Nat) (ho : o < N)
    (hi : i < R.length / N) : o + i * N < R.length := by
  have h1 := slot_end_le R N i hi
  have h2 : (i + 1) * N = i * N + N := by ring
  omega

/-- A loop whose reads of the reduced array are all inside it can only stop at an index
that is outside the attribute array. -/
theorem writeCombinedArrayLoop_error_cause {T : Type} (s o : Nat) (R : List Nat)
    (A : List T) (n : Nat) (e : Failure)
    (hreads : ∀ j, j < n → o + j * s < R.length)
    (h : writeCombinedArrayLoop s o R A n 0 [] = .error e) :
    ∃ j index, j < n ∧ R[o + j * s]? = some index ∧ A.length ≤ index := by
  by_contra hnone
  obtain ⟨pushed, hrun, _⟩ := writeCombinedArrayLoop_ok s o R A n 0 [] (by
    intro j hj
    have hpos := hreads j hj
    refine ⟨R[o + j * s], by rw [Nat.zero_add]; exact List.getElem?_eq_getElem hpos, ?_⟩
    by_contra hge
    exact hnone ⟨j, _, hj, List.getElem?_eq_getElem hpos, by omega⟩)
  rw [hrun] at h
  cases h

/-- The calls made by the pack all carry the stride given, with offsets counting up from
the first one. -/
theorem writeCombinedArraysCalls_bounds {T : Type} (s o : Nat) (R : List Nat)
    (arrays : List (List T)) :
    ∀ call ∈ writeCombinedArraysCalls s o R arrays,
      call.1 = s ∧ o ≤ call.2 ∧ call.2 < o + arrays.length := by
  induction arrays generalizing o with
  | nil => intro call h; simp [writeCombinedArraysCalls] at h
  | cons first next ih =>
    intro call h
    simp only [writeCombinedArraysCalls, List.mem_cons] at h
    rcases h with h | h
    · subst h
      simp
    · cases hw : writeCombinedArray s o R first with
      | error e => rw [hw] at h; simp at h
      | ok written =>
        rw [hw] at h
        have := ih (o + 1) call h
        simp only [List.length_cons]
        omega

/-- C16. Bounds of the reads of the reduced array in `writeCombinedArray`: with stride
`N ≥ 1`, offset `o < N` and a reduced array `R` of any length, every position `o + i*N`
read in the `floor(len(R)/N)` turns of the loop is strictly below `len(R)`, so a call can
only stop at an index outside the attribute array; when there is none the output has
length `floor(len(R)/N)`, one element per turn, and a trailing partial tuple of `R` is
ignored.  `combineIndexedArrays` on `N` channels only calls it with stride `N ≥ 1` and
offsets below `N`, and with zero channels it calls it not at all. -/
theorem writeCombinedArray_reads_in_bounds {T : Type} (N o : Nat) (R : List Nat)
    (A : List T) (hN : 1 ≤ N) (ho : o < N) :
    (∀ i, i < R.length / N → o + i * N < R.length) ∧
    (∀ e, writeCombinedArray N o R A = .error e →
      ∃ i index, i < R.length / N ∧ R[o + i * N]? = some index ∧ A.length ≤ index) ∧
    ((∀ i, i < R.length / N → ∀ index, R[o + i * N]? = some index → index < A.length) →
      ∃ A', writeCombinedArray N o R A = .ok A' ∧ A'.length = R.length / N ∧
        ∀ i, i < R.length / N → ∃ index a, R[o + i * N]? = some index ∧
          A[index]? = some a ∧ A'[i]? = some a) ∧
    writeCombinedArray N o R A
      = writeCombinedArray N o (R.take (R.length / N * N)) A ∧
    (∀ channels : List (List Nat × List T), ∀ call ∈ combineIndexedArraysCalls channels,
      call.1 = channels.length ∧ 1 ≤ call.1 ∧ call.2 < channels.length) ∧
    combineIndexedArraysCalls ([] : List (List Nat × List T)) = [] ∧
    writeCombinedArraysCalls 0 0 R ([] : List (List T)) = [] ∧
    writeCombinedArrays 0 0 R ([] : List (List T)) = ([], none) := by
  have hreads : ∀ i, i < R.length / N → o + i * N < R.length := fun i hi =>
    read_position_lt R N o i ho hi
  refine ⟨hreads, ?_, ?_, ?_, ?_, rfl, rfl, rfl⟩
  · intro e he
    unfold writeCombinedArray at he
    rw [if_neg (by omega)] at he
    exact writeCombinedArrayLoop_error_cause N o R A _ e hreads he
  · intro hin
    obtain ⟨pushed, hrun, hlen, hget⟩ :=
      writeCombinedArrayLoop_ok N o R A (R.length / N) 0 [] (by
        intro j hj
        have hpos := hreads j hj
        exact ⟨R[o + j * N], by rw [Nat.zero_add]; exact List.getElem?_eq_getElem hpos,
          hin j hj _ (List.getElem?_eq_getElem hpos)⟩)
    refine ⟨pushed, ?_, hlen, ?_⟩
    · unfold writeCombinedArray
      rw [if_neg (by omega), hrun]
      simp
    · intro i hi
      obtain ⟨index, a, h1, h2, h3⟩ := hget i hi
      exact ⟨index, a, by rwa [Nat.zero_add] at h1, h2, h3⟩
  · have hle : R.length / N * N ≤ R.length := Nat.div_mul_le_self R.length N
    have hlen : (R.take (R.length / N * N)).length / N = R.length / N := by
      rw [List.length_take, Nat.min_eq_left hle]
      exact Nat.mul_div_cancel _ (by omega)
    unfold writeCombinedArray
    rw [if_neg (by omega), if_neg (by omega), hlen]
    apply writeCombinedArrayLoop_congr
    intro j hj
    rw [Nat.zero_add]
    have hlt : o + j * N < R.length / N * N :=
      reduced_position_lt N o (R.length / N) j ho hj
    exact (List.getElem?_take_of_lt hlt).symm
  · intro channels call hcall
    unfold combineIndexedArraysCalls at hcall
    split at hcall
    · simp at hcall
    · have := writeCombinedArraysCalls_bounds _ _ _ _ call hcall
      simp only [List.length_map] at this
      omega

/-- C16 on a reduced array of five values read with stride 2: two turns, the fifth value
is not read. -/
theorem writeCombinedArray_reads_in_bounds_witness :
    writeCombinedArray 2 1 [0, 1, 0, 0, 7] ['a', 'b'] = .ok ['b', 'a'] ∧
    ((∀ i, i < [0, 1, 0, 0, 7].length / 2 → 1 + i * 2 < [0, 1, 0, 0, 7].length) ∧
    (∀ e, writeCombinedArray 2 1 [0, 1, 0, 0, 7] ['a', 'b'] = .error e →
      ∃ i index, i < [0, 1, 0, 0, 7].length / 2 ∧
        [0, 1, 0, 0, 7][1 + i * 2]? = some index ∧ ['a', 'b'].length ≤ index) ∧
    ((∀ i, i < [0, 1, 0, 0, 7].length / 2 → ∀ index,
        [0, 1, 0, 0, 7][1 + i * 2]? = some index → index < ['a', 'b'].length) →
      ∃ A', writeCombinedArray 2 1 [0, 1, 0, 0, 7] ['a', 'b'] = .ok A' ∧
        A'.length = [0, 1, 0, 0, 7].length / 2 ∧
        ∀ i, i < [0, 1, 0, 0, 7].length / 2 → ∃ index a,
          [0, 1, 0, 0, 7][1 + i * 2]? = some index ∧
          ['a', 'b'][index]? = some a ∧ A'[i]? = some a) ∧
    writeCombinedArray 2 1 [0, 1, 0, 0, 7] ['a', 'b']
      = writeCombinedArray 2 1
        ([0, 1, 0, 0, 7].take ([0, 1, 0, 0, 7].length / 2 * 2)) ['a', 'b'] ∧
    (∀ channels : List (List Nat × List Char),
      ∀ call ∈ combineIndexedArraysCalls channels,
        call.1 = channels.length ∧ 1 ≤ call.1 ∧ call.2 < channels.length) ∧
    combineIndexedArraysCalls ([] : List (List Nat × List Char)) = [] ∧
    writeCombinedArraysCalls 0 0 [0, 1, 0, 0, 7] ([] : List (List Char)) = [] ∧
    writeCombinedArrays 0 0 [0, 1, 0, 0, 7] ([] : List (List Char)) = ([], none)) :=
  ⟨rfl, writeCombinedArray_reads_in_bounds 2 1 [0, 1, 0, 0, 7] ['a', 'b']
    (by decide) (by decide)⟩

end Magnum.MeshTools

namespace Magnum.MeshTools

open Implementation

/-- A pack that ends normally has made one call per array, array `k` with offset `o + k`,
and left in its place what that call returned. -/
theorem writeCombinedArrays_none {T : Type} (s o : Nat) (R : List Nat)
    (arrays out : List (List T)) (h : writeCombinedArrays s o R arrays = (out, none)) :
    out.length = arrays.length ∧
    (∀ k a, arrays[k]? = some a → ∃ a', writeCombinedArray s (o + k) R a = .ok a' ∧
      out[k]? = some a') ∧
    writeCombinedArraysCalls s o R arrays
      = (List.range arrays.length).map (fun k => (s, o + k)) := by
  induction arrays generalizing o out with
  | nil =>
    simp only [writeCombinedArrays, Prod.mk.injEq] at h
    obtain ⟨rfl, _⟩ := h
    exact ⟨rfl, by intro k a hk; simp at hk, rfl⟩
  | cons first next ih =>
    cases hw : writeCombinedArray s o R first with
    | error e => simp [writeCombinedArrays, hw] at h
    | ok written =>
      simp only [writeCombinedArrays, hw, Prod.mk.injEq] at h
      obtain ⟨rfl, hrest⟩ := h
      obtain ⟨hlen, hget, hcalls⟩ := ih (o + 1) _ (Prod.ext rfl hrest)
      refine ⟨by simp [hlen], ?_, ?_⟩
      · intro k a hk
        cases k with
        | zero =>
          simp only [List.getElem?_cons_zero, Option.some.injEq] at hk
          subst hk
          exact ⟨written, hw, by simp⟩
        | succ k =>
          simp only [List.getElem?_cons_succ] at hk
          obtain ⟨a', h1, h2⟩ := hget k a hk
          exact ⟨a', by rwa [show o + (k + 1) = o + 1 + k by omega], by simpa using h2⟩
      · simp only [writeCombinedArraysCalls, hw, hcalls, List.length_cons,
          List.range_succ_eq_map, List.map_cons, List.map_map, Nat.add_zero]
        congr 1
        apply List.map_congr_left
        intro k _
        simp only [Function.comp, Prod.mk.injEq, true_and]
        omega

/-- C15. Channel dispatch in `combineIndexedArrays`: for `N ≥ 1` valid channels there is
one deduplication of the interleaved index arrays, giving the reduced array `R`; the
rewriter is called exactly once per channel, in order, always with stride `N` and with
offset `k` for the channel at position `k`; the attribute array of channel `k` after the
call is what `writeCombinedArray(N, k, R, A_k)` returns, whose element `u` is
`A_k[R[u*N + k]]`. -/
theorem combineIndexedArrays_dispatch {T : Type} (channels : List (List Nat × List T))
    (L : Nat) (hN : 1 ≤ channels.length) (hL : ∀ ch ∈ channels, ch.1.length = L)
    (hin : ∀ ch ∈ channels, ∀ v ∈ ch.1, v < ch.2.length) :
    ∃ cs R, interleaveAndCombineIndexArrays (channels.map Prod.fst) = .ok (cs, R) ∧
      (combineIndexedArrays channels).returned = .ok cs ∧
      combineIndexedArraysCalls channels
        = (List.range channels.length).map (fun k => (channels.length, k)) ∧
      (combineIndexedArrays channels).arrays.length = channels.length ∧
      ∀ k ch, channels[k]? = some ch →
        ∃ A', writeCombinedArray channels.length k R ch.2 = .ok A' ∧
          (combineIndexedArrays channels).arrays[k]? = some A' ∧
          A'.length = R.length / channels.length ∧
          ∀ u, u < R.length / channels.length → ∃ index a,
            R[u * channels.length + k]? = some index ∧ ch.2[index]? = some a ∧
            A'[u]? = some a := by
  obtain ⟨X, hX, hXlen, hXget, hfirst⟩ := interleaveAndCombine_channels channels L hN hL
  obtain ⟨hRlen, _⟩ := reduced_array_facts X channels.length L hN hXlen
  have hdiv : (combineIndexArrays X channels.length).2.length / channels.length
      = distinctTuples X channels.length := by
    rw [hRlen]; exact Nat.mul_div_cancel _ (by omega)
  obtain ⟨out, hout, _, hoget⟩ := writeCombinedArrays_ok channels.length
    (distinctTuples X channels.length) (combineIndexArrays X channels.length).2 hN hRlen
    (channels.map Prod.snd) 0 (by simp) (by
      intro k a hk u hu index hidx
      rw [List.getElem?_map] at hk
      cases hch : channels[k]? with
      | none => rw [hch] at hk; cases hk
      | some ch =>
        rw [hch] at hk
        cases hk
        rw [Nat.zero_add] at hidx
        obtain ⟨i, _, hi⟩ := reduced_index_of_channel channels L hN X hXlen hXget k ch hch
          u index hu hidx
        exact hin ch (List.mem_iff_getElem?.mpr ⟨k, hch⟩) index
          (List.mem_iff_getElem?.mpr ⟨i, hi⟩))
  obtain ⟨holen, hocall, hcalls⟩ := writeCombinedArrays_none _ _ _ _ _ hout
  have hcall : combineIndexedArrays channels
      = { returned := .ok (combineIndexArrays X channels.length).1, arrays := out } := by
    simp only [combineIndexedArrays, hfirst, hout]
  refine ⟨(combineIndexArrays X channels.length).1, (combineIndexArrays X channels.length).2,
    hfirst, by rw [hcall], ?_, by rw [hcall]; simpa using holen, ?_⟩
  · simp only [combineIndexedArraysCalls, hfirst, hcalls, List.length_map, Nat.zero_add]
  · intro k ch hk
    have hsnd : (channels.map Prod.snd)[k]? = some ch.2 := by
      rw [List.getElem?_map, hk]; rfl
    obtain ⟨A', h1, h2⟩ := hocall k ch.2 hsnd
    obtain ⟨A'', g1, g2, g3⟩ := hoget k ch.2 hsnd
    rw [h2] at g1
    cases g1
    rw [Nat.zero_add] at h1
    rw [hdiv]
    refine ⟨A', h1, by rw [hcall]; exact h2, g2, ?_⟩
    intro u hu
    obtain ⟨index, a, e1, e2, e3⟩ := g3 u hu
    exact ⟨index, a, by rwa [Nat.zero_add] at e1, e2, e3⟩

/-- C15 on the mesh of the documentation: two calls, (stride 2, offset 0) for the
positions and (stride 2, offset 1) for the normals. -/
theorem combineIndexedArrays_dispatch_witness :
    combineIndexedArraysCalls
      [([0, 2, 5, 0, 0, 1, 3, 2, 2], ['a', 'b', 'c', 'd', 'e', 'f']),
       ([1, 3, 4, 1, 4, 6, 1, 3, 1], ['A', 'B', 'C', 'D', 'E', 'F', 'G'])]
      = [(2, 0), (2, 1)] ∧
    ∃ cs R, interleaveAndCombineIndexArrays
        ([([0, 2, 5, 0, 0, 1, 3, 2, 2], ['a', 'b', 'c', 'd', 'e', 'f']),
          ([1, 3, 4, 1, 4, 6, 1, 3, 1], ['A', 'B', 'C', 'D', 'E', 'F', 'G'])].map Prod.fst)
        = .ok (cs, R) ∧
      (combineIndexedArrays
        [([0, 2, 5, 0, 0, 1, 3, 2, 2], ['a', 'b', 'c', 'd', 'e', 'f']),
         ([1, 3, 4, 1, 4, 6, 1, 3, 1], ['A', 'B', 'C', 'D', 'E', 'F', 'G'])]).returned
        = .ok cs ∧
      combineIndexedArraysCalls
        [([0, 2, 5, 0, 0, 1, 3, 2, 2], ['a', 'b', 'c', 'd', 'e', 'f']),
         ([1, 3, 4, 1, 4, 6, 1, 3, 1], ['A', 'B', 'C', 'D', 'E', 'F', 'G'])]
        = (List.range
          [([0, 2, 5, 0, 0, 1, 3, 2, 2], ['a', 'b', 'c', 'd', 'e', 'f']),
           ([1, 3, 4, 1, 4, 6, 1, 3, 1], ['A', 'B', 'C', 'D', 'E', 'F', 'G'])].length).map
          (fun k => ([([0, 2, 5, 0, 0, 1, 3, 2, 2], ['a', 'b', 'c', 'd', 'e', 'f']),
           ([1, 3, 4, 1, 4, 6, 1, 3, 1], ['A', 'B', 'C', 'D', 'E', 'F', 'G'])].length, k)) ∧
      (combineIndexedArrays
        [([0, 2, 5, 0, 0, 1, 3, 2, 2], ['a', 'b', 'c', 'd', 'e', 'f']),
         ([1, 3, 4, 1, 4, 6, 1, 3, 1], ['A', 'B', 'C', 'D', 'E', 'F', 'G'])]).arrays.length
        = [([0, 2, 5, 0, 0, 1, 3, 2, 2], ['a', 'b', 'c', 'd', 'e', 'f']),
           ([1, 3, 4, 1, 4, 6, 1, 3, 1], ['A', 'B', 'C', 'D', 'E', 'F', 'G'])].length ∧
      ∀ k ch, [([0, 2, 5, 0, 0, 1, 3, 2, 2], ['a', 'b', 'c', 'd', 'e', 'f']),
           ([1, 3, 4, 1, 4, 6, 1, 3, 1], ['A', 'B', 'C', 'D', 'E', 'F', 'G'])][k]?
          = some ch →
        ∃ A', writeCombinedArray
            [([0, 2, 5, 0, 0, 1, 3, 2, 2], ['a', 'b', 'c', 'd', 'e', 'f']),
             ([1, 3, 4, 1, 4, 6, 1, 3, 1], ['A', 'B', 'C', 'D', 'E', 'F', 'G'])].length
            k R ch.2 = .ok A' ∧
          (combineIndexedArrays
            [([0, 2, 5, 0, 0, 1, 3, 2, 2], ['a', 'b', 'c', 'd', 'e', 'f']),
             ([1, 3, 4, 1, 4, 6, 1, 3, 1], ['A', 'B', 'C', 'D', 'E', 'F', 'G'])]).arrays[k]?
            = some A' ∧
          A'.length = R.length /
            [([0, 2, 5, 0, 0, 1, 3, 2, 2], ['a', 'b', 'c', 'd', 'e', 'f']),
             ([1, 3, 4, 1, 4, 6, 1, 3, 1], ['A', 'B', 'C', 'D', 'E', 'F', 'G'])].length ∧
          ∀ u, u < R.length /
              [([0, 2, 5, 0, 0, 1, 3, 2, 2], ['a', 'b', 'c', 'd', 'e', 'f']),
               ([1, 3, 4, 1, 4, 6, 1, 3, 1], ['A', 'B', 'C', 'D', 'E', 'F', 'G'])].length →
            ∃ index a,
            R[u * [([0, 2, 5, 0, 0, 1, 3, 2, 2], ['a', 'b', 'c', 'd', 'e', 'f']),
               ([1, 3, 4, 1, 4, 6, 1, 3, 1], ['A', 'B', 'C', 'D', 'E', 'F', 'G'])].length
              + k]? = some index ∧
            ch.2[index]? = some a ∧ A'[u]? = some a :=
  ⟨by decide, combineIndexedArrays_dispatch
    [([0, 2, 5, 0, 0, 1, 3, 2, 2], ['a', 'b', 'c', 'd', 'e', 'f']),
     ([1, 3, 4, 1, 4, 6, 1, 3, 1], ['A', 'B', 'C', 'D', 'E', 'F', 'G'])] 9
    (by decide) (by decide) (by decide)⟩

end Magnum.MeshTools

/-! ## Mismatched lengths and empty input -/

namespace Magnum.MeshTools

open Implementation

/-- The interleaver rejects a list holding an array whose length is not the first one's. -/
theorem interleave_mismatch (arrays : List (List Nat)) (first a : List Nat)
    (hfirst : arrays.head? = some first) (ha : a ∈ arrays)
    (hne : a.length ≠ first.length) : interleave arrays = .error .LengthMismatchError := by
  cases arrays with
  | nil => simp at ha
  | cons b rest =>
    simp only [List.head?_cons, Option.some.injEq] at hfirst
    subst hfirst
    have hall : ¬ ((b :: rest).all (fun x => x.length == b.length) = true) := by
      intro h
      rw [List.all_eq_true] at h
      have := h a ha
      simp only [beq_iff_eq] at this
      exact hne this
    simp only [interleave]
    rw [if_neg hall]

/-- C11. Mismatched lengths are rejected without mutation: when some index array's
length differs from the first index array's length, the array-set form of
`combineIndexArrays` ends in `LengthMismatchError` with every index array as it was, and
`combineIndexedArrays` on channels with these index arrays ends in `LengthMismatchError`
with every attribute array as it was (its index arrays are read-only). -/
theorem combine_rejects_length_mismatch {T : Type} (arrays : List (List Nat))
    (first a : List Nat) (hfirst : arrays.head? = some first) (ha : a ∈ arrays)
    (hne : a.length ≠ first.length) :
    (combineIndexArraysRefs arrays).returned = .error .LengthMismatchError ∧
    (combineIndexArraysRefs arrays).arrays = arrays ∧
    ∀ channels : List (List Nat × List T), channels.map Prod.fst = arrays →
      (combineIndexedArrays channels).returned = .error .LengthMismatchError ∧
      (combineIndexedArrays channels).arrays = channels.map Prod.snd := by
  have hX := interleave_mismatch arrays first a hfirst ha hne
  have hcombine : interleaveAndCombineIndexArrays arrays = .error .LengthMismatchError := by
    simp only [interleaveAndCombineIndexArrays, hX]
  refine ⟨?_, ?_, ?_⟩
  · simp only [combineIndexArraysRefs, hcombine]
  · simp only [combineIndexArraysRefs, hcombine]
  · intro channels hch
    simp only [combineIndexedArrays, hch, hcombine, and_self]

/-- C11 on index arrays of lengths 3 and 2. -/
theorem combine_rejects_length_mismatch_witness :
    (combineIndexArraysRefs [[0, 1, 2], [0, 1]]).returned = .error .LengthMismatchError ∧
    (combineIndexArraysRefs [[0, 1, 2], [0, 1]]).arrays = [[0, 1, 2], [0, 1]] ∧
    ∀ channels : List (List Nat × List Char),
      channels.map Prod.fst = [[0, 1, 2], [0, 1]] →
      (combineIndexedArrays channels).returned = .error .LengthMismatchError ∧
      (combineIndexedArrays channels).arrays = channels.map Prod.snd :=
  combine_rejects_length_mismatch [[0, 1, 2], [0, 1]] [0, 1, 2] [0, 1] rfl (by simp)
    (by decide)

/-- The rewriter on an empty reduced array leaves an empty attribute array. -/
theorem writeCombinedArray_empty {T : Type} (s o : Nat) (A : List T) (hs : 1 ≤ s) :
    writeCombinedArray s o [] A = .ok [] := by
  unfold writeCombinedArray
  rw [if_neg (by omega)]
  simp [writeCombinedArrayLoop]

theorem writeCombinedArrays_empty {T : Type} (s o : Nat) (arrays : List (List T))
    (hs : 1 ≤ s) :
    writeCombinedArrays s o [] arrays = (List.replicate arrays.length [], none) := by
  induction arrays generalizing o with
  | nil => rfl
  | cons first next ih =>
    simp only [writeCombinedArrays, writeCombinedArray_empty s o first hs, ih (o + 1),
      List.length_cons, List.replicate_succ]

/-- C13. Empty input: for `N ≥ 1` channels whose index arrays all have length 0, the
interleaved array is empty, the deduplicator returns an empty combined index array and an
empty reduced array (`U = 0`), the array-set form returns `[]` and leaves `N` empty index
arrays, and `combineIndexedArrays` returns `[]` and replaces every attribute array by the
empty array, whatever it held. -/
theorem combine_empty_input {T : Type} (channels : List (List Nat × List T))
    (hN : 1 ≤ channels.length) (hL : ∀ ch ∈ channels, ch.1.length = 0) :
    interleave (channels.map Prod.fst) = .ok [] ∧
    combineIndexArrays [] channels.length = ([], []) ∧
    distinctTuples [] channels.length = 0 ∧
    (combineIndexArraysRefs (channels.map Prod.fst)).returned = .ok [] ∧
    (combineIndexArraysRefs (channels.map Prod.fst)).arrays
      = List.replicate channels.length [] ∧
    (combineIndexedArrays channels).returned = .ok [] ∧
    (combineIndexedArrays channels).arrays = List.replicate channels.length [] := by
  obtain ⟨X, hX, hXlen, _⟩ := interleave_ok (channels.map Prod.fst) 0
    (by simpa using hN) (by
      intro a ha
      obtain ⟨ch, hch, rfl⟩ := List.mem_map.mp ha
      exact hL ch hch)
  have hnil : X = [] := List.length_eq_zero.mp (by simpa using hXlen)
  subst hnil
  have hdedup : combineIndexArrays [] channels.length = ([], []) := by
    simp [combineIndexArrays, combineScan]
  have hcombine : interleaveAndCombineIndexArrays (channels.map Prod.fst)
      = .ok ([], []) := by
    simp only [interleaveAndCombineIndexArrays, hX, List.length_map, hdedup]
  refine ⟨hX, hdedup, by simp [distinctTuples, slotTuples], ?_, ?_, ?_, ?_⟩
  · simp only [combineIndexArraysRefs, hcombine]
  · simp only [combineIndexArraysRefs, hcombine, List.length_map]
    apply List.ext_getElem?
    intro k
    by_cases hk : k < channels.length
    · simp [List.getElem?_range hk, hk, deinterleaveColumn]
    · simp [List.getElem?_eq_none, Nat.le_of_not_lt hk]
  · simp only [combineIndexedArrays, hcombine, writeCombinedArrays_empty _ _ _ hN]
  · simp only [combineIndexedArrays, hcombine, writeCombinedArrays_empty _ _ _ hN,
      List.length_map]

/-- C13 on two channels with empty index arrays and non-empty attribute arrays. -/
theorem combine_empty_input_witness :
    interleave ([([], ['a', 'b']), ([], ['x'])].map Prod.fst) = .ok [] ∧
    combineIndexArrays [] [(([] : List Nat), ['a', 'b']), ([], ['x'])].length = ([], []) ∧
    distinctTuples [] [(([] : List Nat), ['a', 'b']), ([], ['x'])].length = 0 ∧
    (combineIndexArraysRefs ([([], ['a', 'b']), ([], ['x'])].map Prod.fst)).returned
      = .ok [] ∧
    (combineIndexArraysRefs ([([], ['a', 'b']), ([], ['x'])].map Prod.fst)).arrays
      = List.replicate [(([] : List Nat), ['a', 'b']), ([], ['x'])].length [] ∧
    (combineIndexedArrays [([], ['a', 'b']), ([], ['x'])]).returned = .ok [] ∧
    (combineIndexedArrays [([], ['a', 'b']), ([], ['x'])]).arrays
      = List.replicate [(([] : List Nat), ['a', 'b']), ([], ['x'])].length [] :=
  combine_empty_input [([], ['a', 'b']), ([], ['x'])] (by decide) (by decide)

end Magnum.MeshTools

/-! ## The combined index array is fixed by which slots hold equal tuples -/

namespace Magnum.MeshTools

open Implementation

/-- Two index arrays in first-occurrence order that are equal at the same pairs of slots
are the same array. -/
theorem dense_pattern_unique (cs ds : List Nat) (hlen : cs.length = ds.length)
    (hpat : ∀ i j : Nat, i < cs.length → j < cs.length →
      (cs[i]? = cs[j]? ↔ ds[i]? = ds[j]?))
    (hc : ∀ i v : Nat, cs[i]? = some v → ∀ u : Nat, u < v →
      ∃ j : Nat, j < i ∧ cs[j]? = some u)
    (hd : ∀ i v : Nat, ds[i]? = some v → ∀ u : Nat, u < v →
      ∃ j : Nat, j < i ∧ ds[j]? = some u) :
    cs = ds := by
  apply List.ext_getElem?
  intro i
  induction i using Nat.strong_induction_on with
  | _ i ih =>
    by_cases hi : i < cs.length
    · have hid : i < ds.length := hlen ▸ hi
      have hca : cs[i]? = some cs[i] := List.getElem?_eq_getElem hi
      have hdb : ds[i]? = some ds[i] := List.getElem?_eq_getElem hid
      rcases Nat.lt_trichotomy cs[i] ds[i] with h | h | h
      · obtain ⟨j, hj, hdj⟩ := hd i _ hdb _ h
        have hcj : cs[j]? = some cs[i] := (ih j hj).trans hdj
        have := (hpat j i (by omega) hi).mp (hcj.trans hca.symm)
        rw [hdj, hdb] at this
        have := Option.some.inj this
        omega
      · rw [hca, hdb, h]
      · obtain ⟨j, hj, hcj⟩ := hc i _ hca _ h
        have hdj : ds[j]? = some ds[i] := (ih j hj).symm.trans hcj
        have := (hpat j i (by omega) hi).mpr (hdj.trans hdb.symm)
        rw [hcj, hca] at this
        have := Option.some.inj this
        omega
    · rw [List.getElem?_eq_none (by omega), List.getElem?_eq_none (by omega)]

/-- The combined index array of the deduplicator has one entry per slot, is equal at two
slots exactly when the slots hold the same tuple, and is in first-occurrence order. -/
theorem combinedIndices_pattern (X : List Nat) (N L : Nat) (hN : 1 ≤ N)
    (hX : X.length = L * N) :
    (combineIndexArrays X N).1.length = L ∧
    (∀ i j, i < L → j < L → ((combineIndexArrays X N).1[i]? = (combineIndexArrays X N).1[j]?
      ↔ tupleAt X N i = tupleAt X N j)) ∧
    (∀ i v : Nat, (combineIndexArrays X N).1[i]? = some v → ∀ u : Nat, u < v →
      ∃ j : Nat, j < i ∧ (combineIndexArrays X N).1[j]? = some u) := by
  obtain ⟨ts, hnd, _, _, hlen, hslot, _, hdense, _⟩ := combineIndexArrays_tuples X N
  rw [slots_eq X N L hN hX] at hslot hlen
  refine ⟨hlen, ?_, hdense⟩
  intro i j hi hj
  obtain ⟨ci, hci, hti⟩ := hslot i hi
  obtain ⟨cj, hcj, htj⟩ := hslot j hj
  rw [hci, hcj]
  constructor
  · intro h
    cases h
    rw [hti] at htj
    exact Option.some.inj htj
  · intro h
    obtain ⟨hil, hie⟩ := List.getElem?_eq_some.mp hti
    obtain ⟨hjl, hje⟩ := List.getElem?_eq_some.mp htj
    have heq : ts[ci] = ts[cj] := by rw [hie, hje, h]
    rw [(hnd.getElem_inj_iff).mp heq]

/-- The values of the combined index array are exactly the ids below `U`. -/
theorem combinedIndices_range (X : List Nat) (N : Nat) :
    (∀ v ∈ (combineIndexArrays X N).1, v < distinctTuples X N) ∧
    (∀ u, u < distinctTuples X N → u ∈ (combineIndexArrays X N).1) := by
  obtain ⟨ts, _, _, _, hlen, hslot, hocc, _, hU⟩ := combineIndexArrays_tuples X N
  rw [← hU]
  constructor
  · intro v hv
    obtain ⟨i, hi⟩ := List.mem_iff_getElem?.mp hv
    have hiL : i < X.length / N := hlen ▸ getElem?_lt_of_eq_some _ _ _ hi
    obtain ⟨id, hid, ht⟩ := hslot i hiL
    rw [hi] at hid
    cases hid
    exact getElem?_lt_of_eq_some _ _ _ ht
  · intro u hu
    obtain ⟨j, _, hcj⟩ := hocc u hu
    exact List.mem_iff_getElem?.mpr ⟨j, hcj⟩

/-- The number of ids is fixed by the values of the index array. -/
theorem ids_count_unique (cs : List Nat) (U V : Nat)
    (hU : (∀ v ∈ cs, v < U) ∧ (∀ u, u < U → u ∈ cs))
    (hV : (∀ v ∈ cs, v < V) ∧ (∀ u, u < V → u ∈ cs)) : U = V := by
  rcases Nat.lt_trichotomy U V with h | h | h
  · have := hU.1 U (hV.2 U h)
    omega
  · exact h
  · have := hV.1 V (hU.2 V h)
    omega

end Magnum.MeshTools

/-! ## All slots identical -/

namespace Magnum.MeshTools

open Implementation

/-- The deduplicator on `L ≥ 1` slots that all hold the tuple of slot 0. -/
theorem combineIndexArrays_all_identical (X : List Nat) (N L : Nat) (hN : 1 ≤ N)
    (hL : 1 ≤ L) (hX : X.length = L * N)
    (hsame : ∀ i k, i < L → k < N → X[i * N + k]? = X[k]?) :
    distinctTuples X N = 1 ∧ combineIndexArrays X N = (List.replicate L 0, X.take N) := by
  obtain ⟨hlen, hpat, hdense⟩ := combinedIndices_pattern X N L hN hX
  have hcs : (combineIndexArrays X N).1 = List.replicate L 0 := by
    apply dense_pattern_unique _ _ (by simp [hlen])
    · intro i j hi hj
      rw [hlen] at hi hj
      have h1 : (combineIndexArrays X N).1[i]? = (combineIndexArrays X N).1[j]? := by
        rw [hpat i j hi hj, tupleAt_eq_iff]
        intro k hk
        rw [hsame i k hi hk, hsame j k hj hk]
      simp [h1, List.getElem?_replicate, hi, hj]
    · exact hdense
    · intro i v hv u hu
      rw [List.getElem?_replicate] at hv
      split at hv
      · cases hv
        omega
      · cases hv
  have hU : distinctTuples X N = 1 := by
    apply ids_count_unique (combineIndexArrays X N).1 _ _ (combinedIndices_range X N)
    rw [hcs]
    constructor
    · intro v hv
      rw [List.eq_of_mem_replicate hv]
      omega
    · intro u hu
      have hu0 : u = 0 := by omega
      subst hu0
      exact List.mem_replicate.mpr ⟨by omega, rfl⟩
  obtain ⟨hRlen, hred⟩ := reduced_array_facts X N L hN hX
  rw [hU, Nat.one_mul] at hRlen
  refine ⟨hU, Prod.ext hcs ?_⟩
  apply List.ext_getElem?
  intro n
  by_cases hn : n < N
  · obtain ⟨ci, x, h1, h2, h3⟩ := hred 0 n (by omega) hn
    rw [hcs, List.getElem?_replicate, if_pos (by omega)] at h1
    cases h1
    simp only [Nat.zero_mul, Nat.zero_add] at h2 h3
    rw [List.getElem?_take_of_lt hn, h2, h3]
  · rw [List.getElem?_eq_none (by omega), List.getElem?_eq_none (by
      rw [List.length_take]; omega)]

/-- C14. All-identical tuples: for `N ≥ 1` channels and `L ≥ 1` slots, if every slot
holds the same `N`-tuple then `U = 1`, `combinedIndices` is `L` zeros and the reduced
interleaved array is that single tuple; and `combineIndexedArrays` on channels whose
index arrays are constant and in range leaves channel `k` with the one-element attribute
array holding `A_k[I_k[0]]`. -/
theorem combine_all_identical {T : Type} (channels : List (List Nat × List T)) (L : Nat)
    (hN : 1 ≤ channels.length) (hL1 : 1 ≤ L) (hL : ∀ ch ∈ channels, ch.1.length = L)
    (hconst : ∀ ch ∈ channels, ∀ i, i < L → ch.1[i]? = ch.1[0]?)
    (hin : ∀ ch ∈ channels, ∀ v ∈ ch.1, v < ch.2.length) :
    (∀ X : List Nat, X.length = L * channels.length →
      (∀ i k, i < L → k < channels.length → X[i * channels.length + k]? = X[k]?) →
      distinctTuples X channels.length = 1 ∧
      combineIndexArrays X channels.length = (List.replicate L 0, X.take channels.length)) ∧
    (combineIndexedArrays channels).returned = .ok (List.replicate L 0) ∧
    (combineIndexedArrays channels).arrays.length = channels.length ∧
    ∀ (k : Nat) (ch : List Nat × List T), channels[k]? = some ch →
      ∃ index a, ch.1[0]? = some index ∧
        ch.2[index]? = some a ∧ (combineIndexedArrays channels).arrays[k]? = some [a] := by
  refine ⟨fun X hX hsame =>
    combineIndexArrays_all_identical X channels.length L hN hL1 hX hsame, ?_⟩
  obtain ⟨X, _, hXlen, hXget, hret, halen, hrew⟩ :=
    combineIndexedArrays_ok channels L hN hL hin
  have hsame : ∀ i k, i < L → k < channels.length →
      X[i * channels.length + k]? = X[k]? := by
    intro i k hi hk
    have hch : channels[k]? = some channels[k] := List.getElem?_eq_getElem hk
    obtain ⟨x, h1, h2⟩ := hXget i k _ hi hch
    obtain ⟨y, g1, g2⟩ := hXget 0 k _ (by omega) hch
    rw [hconst _ (List.getElem_mem hk) i hi, g1] at h1
    cases h1
    rw [h2]
    simpa using g2.symm
  obtain ⟨hU, hpair⟩ := combineIndexArrays_all_identical X channels.length L hN hL1 hXlen hsame
  refine ⟨by rw [hret, hpair], halen, ?_⟩
  intro k ch hk
  obtain ⟨A', hA', hA'len, hget⟩ := hrew k ch hk
  rw [hU] at hA'len hget
  obtain ⟨index, a, g1, g2, g3⟩ := hget 0 (by omega)
  obtain ⟨ci, hci, _, hcol⟩ := combined_index_of_slot channels L hN X hXlen hXget 0 (by omega)
  rw [hpair, List.getElem?_replicate, if_pos (by omega)] at hci
  cases hci
  obtain ⟨x, e1, e2⟩ := hcol k ch hk
  rw [g1] at e2
  cases e2
  refine ⟨index, a, e1, g2, ?_⟩
  rw [hA']
  congr 1
  apply List.ext_getElem?
  intro n
  cases n with
  | zero => simpa using g3
  | succ n => rw [List.getElem?_eq_none (by omega)]; simp

/-- C14 on two channels and three slots that all hold the tuple `(1, 0)`. -/
theorem combine_all_identical_witness :
    combineIndexArrays [1, 0, 1, 0, 1, 0] 2 = ([0, 0, 0], [1, 0]) ∧
    (combineIndexedArrays [([1, 1, 1], ['a', 'b']), ([0, 0, 0], ['x', 'y'])]).arrays
      = [['b'], ['x']] ∧
    ((∀ X : List Nat,
      X.length = 3 * [([1, 1, 1], ['a', 'b']), ([0, 0, 0], ['x', 'y'])].length →
      (∀ i k, i < 3 → k < [([1, 1, 1], ['a', 'b']), ([0, 0, 0], ['x', 'y'])].length →
        X[i * [([1, 1, 1], ['a', 'b']), ([0, 0, 0], ['x', 'y'])].length + k]? = X[k]?) →
      distinctTuples X [([1, 1, 1], ['a', 'b']), ([0, 0, 0], ['x', 'y'])].length = 1 ∧
      combineIndexArrays X [([1, 1, 1], ['a', 'b']), ([0, 0, 0], ['x', 'y'])].length
        = (List.replicate 3 0,
          X.take [([1, 1, 1], ['a', 'b']), ([0, 0, 0], ['x', 'y'])].length)) ∧
    (combineIndexedArrays [([1, 1, 1], ['a', 'b']), ([0, 0, 0], ['x', 'y'])]).returned
      = .ok (List.replicate 3 0) ∧
    (combineIndexedArrays
      [([1, 1, 1], ['a', 'b']), ([0, 0, 0], ['x', 'y'])]).arrays.length
      = [([1, 1, 1], ['a', 'b']), ([0, 0, 0], ['x', 'y'])].length ∧
    ∀ (k : Nat) (ch : List Nat × List Char),
      [([1, 1, 1], ['a', 'b']), ([0, 0, 0], ['x', 'y'])][k]? = some ch →
      ∃ index a, ch.1[0]? = some index ∧ ch.2[index]? = some a ∧
        (combineIndexedArrays
          [([1, 1, 1], ['a', 'b']), ([0, 0, 0], ['x', 'y'])]).arrays[k]? = some [a]) :=
  ⟨by decide, rfl, combine_all_identical
    [([1, 1, 1], ['a', 'b']), ([0, 0, 0], ['x', 'y'])] 3 (by decide) (by decide)
    (by decide) (by decide) (by decide)⟩

end Magnum.MeshTools

/-! ## Running the combination again on its own result -/

namespace Magnum.MeshTools

open Implementation

/-- Channels that all carry the identity index array `0, 1, …, U-1` and an attribute
array of length `U`: the combination returns the identity and leaves the attribute arrays
as they are. -/
theorem combineIndexedArrays_identity {T : Type} (channels : List (List Nat × List T))
    (U : Nat) (hN : 1 ≤ channels.length) (hidx : ∀ ch ∈ channels, ch.1 = List.range U)
    (hattr : ∀ ch ∈ channels, ch.2.length = U) :
    (combineIndexedArrays channels).returned = .ok (List.range U) ∧
    (combineIndexedArrays channels).arrays = channels.map Prod.snd ∧
    ∃ X, interleave (channels.map Prod.fst) = .ok X ∧
      distinctTuples X channels.length = U := by
  obtain ⟨X, hX, hXlen, hXget, hret, halen, hrew⟩ := combineIndexedArrays_ok channels U hN
    (by intro ch hch; rw [hidx ch hch]; simp)
    (by
      intro ch hch v hv
      rw [hidx ch hch] at hv
      rw [hattr ch hch]
      exact List.mem_range.mp hv)
  have hval : ∀ i k, i < U → k < channels.length →
      X[i * channels.length + k]? = some i := by
    intro i k hi hk
    obtain ⟨x, h1, h2⟩ := hXget i k _ hi (List.getElem?_eq_getElem hk)
    rw [hidx _ (List.getElem_mem hk), List.getElem?_range hi] at h1
    cases h1
    exact h2
  obtain ⟨hlen, hpat, hdense⟩ := combinedIndices_pattern X channels.length U hN hXlen
  have hcs : (combineIndexArrays X channels.length).1 = List.range U := by
    apply dense_pattern_unique _ _ (by simp [hlen])
    · intro i j hi hj
      rw [hlen] at hi hj
      rw [hpat i j hi hj, List.getElem?_range hi, List.getElem?_range hj]
      constructor
      · intro h
        have h0 := (tupleAt_eq_iff X X channels.length i j).mp h 0 (by omega)
        rw [hval i 0 hi (by omega), hval j 0 hj (by omega)] at h0
        exact h0
      · intro h
        cases h
        rfl
    · exact hdense
    · intro i v hv u hu
      have hiU : i < U := by
        have := getElem?_lt_of_eq_some _ _ _ hv
        simpa using this
      rw [List.getElem?_range hiU] at hv
      cases hv
      exact ⟨u, hu, List.getElem?_range (by omega)⟩
  have hU : distinctTuples X channels.length = U := by
    apply ids_count_unique (combineIndexArrays X channels.length).1 _ _
      (combinedIndices_range X channels.length)
    rw [hcs]
    exact ⟨fun v hv => List.mem_range.mp hv, fun u hu => List.mem_range.mpr hu⟩
  refine ⟨by rw [hret, hcs], ?_, X, hX, hU⟩
  apply List.ext_getElem?
  intro k
  by_cases hk : k < channels.length
  · have hch : channels[k]? = some channels[k] := List.getElem?_eq_getElem hk
    obtain ⟨A', hA', hA'len, hget⟩ := hrew k _ hch
    rw [hA', List.getElem?_map, hch]
    simp only [Option.map_some', Option.some.injEq]
    apply List.ext_getElem?
    intro u
    by_cases hu : u < U
    · obtain ⟨index, x, g1, g2, g3⟩ := hget u (by omega)
      obtain ⟨_, hred⟩ := reduced_array_facts X channels.length U hN hXlen
      obtain ⟨ci, y, e1, e2, e3⟩ := hred u k hu hk
      rw [hcs, List.getElem?_range hu] at e1
      cases e1
      rw [hval u k hu hk] at e2
      cases e2
      rw [g1] at e3
      cases e3
      rw [g3, g2]
    · rw [List.getElem?_eq_none (by omega),
        List.getElem?_eq_none (by rw [hattr _ (List.getElem_mem hk)]; omega)]
  · rw [List.getElem?_eq_none (by omega), List.getElem?_eq_none (by simp; omega)]

/-- C12. Idempotence of structure: when `combineIndexedArrays` on `N ≥ 1` valid channels
has returned `c` and left the attribute arrays `A'_k`, each of length `U`, running it
again on the channels (`[0, 1, …, U-1]`, `A'_k`) returns `[0, 1, …, U-1]`, finds the same
number `U` of distinct tuples, and leaves every `A'_k` unchanged. -/
theorem combineIndexedArrays_idempotent {T : Type} (channels : List (List Nat × List T))
    (L : Nat) (hN : 1 ≤ channels.length) (hL : ∀ ch ∈ channels, ch.1.length = L)
    (hin : ∀ ch ∈ channels, ∀ v ∈ ch.1, v < ch.2.length) :
    ∃ cs X U, (combineIndexedArrays channels).returned = .ok cs ∧
      interleave (channels.map Prod.fst) = .ok X ∧
      U = distinctTuples X channels.length ∧
      (combineIndexedArrays channels).arrays.length = channels.length ∧
      (∀ A' ∈ (combineIndexedArrays channels).arrays, A'.length = U) ∧
      (combineIndexedArrays ((combineIndexedArrays channels).arrays.map
        (fun A' => (List.range U, A')))).returned = .ok (List.range U) ∧
      (combineIndexedArrays ((combineIndexedArrays channels).arrays.map
        (fun A' => (List.range U, A')))).arrays = (combineIndexedArrays channels).arrays ∧
      ∃ X2, interleave (((combineIndexedArrays channels).arrays.map
          (fun A' => (List.range U, A'))).map Prod.fst) = .ok X2 ∧
        distinctTuples X2 channels.length = U := by
  obtain ⟨X, hX, _, _, hret, halen, hrew⟩ := combineIndexedArrays_ok channels L hN hL hin
  have hlens : ∀ A' ∈ (combineIndexedArrays channels).arrays,
      A'.length = distinctTuples X channels.length := by
    intro A' hA'
    obtain ⟨k, hk⟩ := List.mem_iff_getElem?.mp hA'
    have hklt : k < channels.length := halen ▸ getElem?_lt_of_eq_some _ _ _ hk
    obtain ⟨A'', h1, h2, _⟩ := hrew k channels[k] (List.getElem?_eq_getElem hklt)
    rw [hk] at h1
    cases h1
    exact h2
  obtain ⟨h1, h2, X2, h3, h4⟩ := combineIndexedArrays_identity
    ((combineIndexedArrays channels).arrays.map
      (fun A' => (List.range (distinctTuples X channels.length), A')))
    (distinctTuples X channels.length) (by simpa [halen] using hN)
    (by
      intro ch hch
      obtain ⟨A', _, rfl⟩ := List.mem_map.mp hch
      rfl)
    (by
      intro ch hch
      obtain ⟨A', hA', rfl⟩ := List.mem_map.mp hch
      exact hlens A' hA')
  refine ⟨_, X, _, hret, hX, rfl, halen, hlens, h1, ?_, X2, h3, ?_⟩
  · rw [h2, List.map_map]
    simp [Function.comp]
  · rw [List.length_map, halen] at h4
    exact h4

/-- C12 on the mesh of the documentation, where `U = 7`. -/
theorem combineIndexedArrays_idempotent_witness :
    (combineIndexedArrays
      [([0, 1, 2, 3, 4, 5, 6], ['a', 'c', 'f', 'a', 'b', 'd', 'c']),
       ([0, 1, 2, 3, 4, 5, 6], ['B', 'D', 'E', 'E', 'G', 'B', 'B'])]).arrays
      = [['a', 'c', 'f', 'a', 'b', 'd', 'c'], ['B', 'D', 'E', 'E', 'G', 'B', 'B']] ∧
    ∃ cs X U, (combineIndexedArrays
        [([0, 2, 5, 0, 0, 1, 3, 2, 2], ['a', 'b', 'c', 'd', 'e', 'f']),
         ([1, 3, 4, 1, 4, 6, 1, 3, 1], ['A', 'B', 'C', 'D', 'E', 'F', 'G'])]).returned
        = .ok cs ∧
      interleave ([([0, 2, 5, 0, 0, 1, 3, 2, 2], ['a', 'b', 'c', 'd', 'e', 'f']),
         ([1, 3, 4, 1, 4, 6, 1, 3, 1], ['A', 'B', 'C', 'D', 'E', 'F', 'G'])].map Prod.fst)
        = .ok X ∧
      U = distinctTuples X
        [([0, 2, 5, 0, 0, 1, 3, 2, 2], ['a', 'b', 'c', 'd', 'e', 'f']),
         ([1, 3, 4, 1, 4, 6, 1, 3, 1], ['A', 'B', 'C', 'D', 'E', 'F', 'G'])].length ∧
      (combineIndexedArrays
        [([0, 2, 5, 0, 0, 1, 3, 2, 2], ['a', 'b', 'c', 'd', 'e', 'f']),
         ([1, 3, 4, 1, 4, 6, 1, 3, 1], ['A', 'B', 'C', 'D', 'E', 'F', 'G'])]).arrays.length
        = [([0, 2, 5, 0, 0, 1, 3, 2, 2], ['a', 'b', 'c', 'd', 'e', 'f']),
         ([1, 3, 4, 1, 4, 6, 1, 3, 1], ['A', 'B', 'C', 'D', 'E', 'F', 'G'])].length ∧
      (∀ A' ∈ (combineIndexedArrays
        [([0, 2, 5, 0, 0, 1, 3, 2, 2], ['a', 'b', 'c', 'd', 'e', 'f']),
         ([1, 3, 4, 1, 4, 6, 1, 3, 1], ['A', 'B', 'C', 'D', 'E', 'F', 'G'])]).arrays,
        A'.length = U) ∧
      (combineIndexedArrays ((combineIndexedArrays
        [([0, 2, 5, 0, 0, 1, 3, 2, 2], ['a', 'b', 'c', 'd', 'e', 'f']),
         ([1, 3, 4, 1, 4, 6, 1, 3, 1], ['A', 'B', 'C', 'D', 'E', 'F', 'G'])]).arrays.map
        (fun A' => (List.range U, A')))).returned = .ok (List.range U) ∧
      (combineIndexedArrays ((combineIndexedArrays
        [([0, 2, 5, 0, 0, 1, 3, 2, 2], ['a', 'b', 'c', 'd', 'e', 'f']),
         ([1, 3, 4, 1, 4, 6, 1, 3, 1], ['A', 'B', 'C', 'D', 'E', 'F', 'G'])]).arrays.map
        (fun A' => (List.range U, A')))).arrays
        = (combineIndexedArrays
        [([0, 2, 5, 0, 0, 1, 3, 2, 2], ['a', 'b', 'c', 'd', 'e', 'f']),
         ([1, 3, 4, 1, 4, 6, 1, 3, 1], ['A', 'B', 'C', 'D', 'E', 'F', 'G'])]).arrays ∧
      ∃ X2, interleave (((combineIndexedArrays
          [([0, 2, 5, 0, 0, 1, 3, 2, 2], ['a', 'b', 'c', 'd', 'e', 'f']),
           ([1, 3, 4, 1, 4, 6, 1, 3, 1], ['A', 'B', 'C', 'D', 'E', 'F', 'G'])]).arrays.map
          (fun A' => (List.range U, A'))).map Prod.fst) = .ok X2 ∧
        distinctTuples X2
          [([0, 2, 5, 0, 0, 1, 3, 2, 2], ['a', 'b', 'c', 'd', 'e', 'f']),
           ([1, 3, 4, 1, 4, 6, 1, 3, 1], ['A', 'B', 'C', 'D', 'E', 'F', 'G'])].length
          = U :=
  ⟨rfl, combineIndexedArrays_idempotent
    [([0, 2, 5, 0, 0, 1, 3, 2, 2], ['a', 'b', 'c', 'd', 'e', 'f']),
     ([1, 3, 4, 1, 4, 6, 1, 3, 1], ['A', 'B', 'C', 'D', 'E', 'F', 'G'])] 9
    (by decide) (by decide) (by decide)⟩

end Magnum.MeshTools

/-! ## A shared index array passed more than once -/

namespace Magnum.MeshTools

open Implementation

/-- C18. Passing a shared index array more than once does not change the combination:
for `N ≥ 1` index arrays of equal length and a position `k`, with a second copy of index
array `k` appended as channel `N`, the combined index array and the number `U` of
distinct tuples are the same as without it, and in the `(N+1)`-channel reduced array the
columns `k` and `N` are equal, so the rewriter called with offset `k` and with offset `N`
gives the same result on every attribute array. -/
theorem combine_shared_index_array (arrays : List (List Nat)) (L k : Nat) (ak : List Nat)
    (hN : 1 ≤ arrays.length) (hL : ∀ a ∈ arrays, a.length = L)
    (hk : arrays[k]? = some ak) :
    ∃ X X', interleave arrays = .ok X ∧ interleave (arrays ++ [ak]) = .ok X' ∧
      interleaveAndCombineIndexArrays arrays = .ok (combineIndexArrays X arrays.length) ∧
      interleaveAndCombineIndexArrays (arrays ++ [ak])
        = .ok (combineIndexArrays X' (arrays.length + 1)) ∧
      (combineIndexArrays X' (arrays.length + 1)).1 = (combineIndexArrays X arrays.length).1 ∧
      distinctTuples X' (arrays.length + 1) = distinctTuples X arrays.length ∧
      (∀ u, u < distinctTuples X arrays.length → ∃ x,
        (combineIndexArrays X' (arrays.length + 1)).2[u * (arrays.length + 1) + k]?
          = some x ∧
        (combineIndexArrays X' (arrays.length + 1)).2[u * (arrays.length + 1)
          + arrays.length]? = some x) ∧
      ∀ (T : Type) (A : List T),
        writeCombinedArray (arrays.length + 1) k
            (combineIndexArrays X' (arrays.length + 1)).2 A
          = writeCombinedArray (arrays.length + 1) arrays.length
            (combineIndexArrays X' (arrays.length + 1)).2 A := by
  have hkN : k < arrays.length := getElem?_lt_of_eq_some _ _ _ hk
  have hak : ak ∈ arrays := List.mem_iff_getElem?.mpr ⟨k, hk⟩
  obtain ⟨X, hX, hXlen, hXget⟩ := interleave_ok arrays L hN hL
  obtain ⟨X', hX', hX'len, hX'get⟩ := interleave_ok (arrays ++ [ak]) L (by simp) (by
    intro a ha
    rcases List.mem_append.mp ha with h | h
    · exact hL a h
    · rw [List.mem_singleton.mp h]
      exact hL ak hak)
  have hlen' : (arrays ++ [ak]).length = arrays.length + 1 := by simp
  rw [hlen'] at hX'len hX'get
  have hcol : ∀ i k', i < L → k' < arrays.length →
      X'[i * (arrays.length + 1) + k']? = X[i * arrays.length + k']? := by
    intro i k' hi hk'
    obtain ⟨a, x, h1, h2, h3⟩ := hX'get i k' hi (by omega)
    obtain ⟨b, y, g1, g2, g3⟩ := hXget i k' hi hk'
    rw [List.getElem?_append_left hk', g1] at h1
    cases h1
    rw [g2] at h2
    cases h2
    rw [h3, g3]
  have hlast : ∀ i, i < L →
      X'[i * (arrays.length + 1) + arrays.length]? = X[i * arrays.length + k]? := by
    intro i hi
    obtain ⟨a, x, h1, h2, h3⟩ := hX'get i arrays.length hi (by omega)
    obtain ⟨b, y, g1, g2, g3⟩ := hXget i k hi hkN
    rw [List.getElem?_append_right (Nat.le_refl _)] at h1
    simp only [Nat.sub_self, List.getElem?_cons_zero, Option.some.injEq] at h1
    rw [hk] at g1
    cases g1
    subst h1
    rw [g2] at h2
    cases h2
    rw [h3, g3]
  have htuples : ∀ i j, i < L → j < L →
      (tupleAt X' (arrays.length + 1) i = tupleAt X' (arrays.length + 1) j ↔
        tupleAt X arrays.length i = tupleAt X arrays.length j) := by
    intro i j hi hj
    rw [tupleAt_eq_iff, tupleAt_eq_iff]
    constructor
    · intro h k' hk'
      rw [← hcol i k' hi hk', ← hcol j k' hj hk']
      exact h k' (by omega)
    · intro h k' hk'
      by_cases hlt : k' < arrays.length
      · rw [hcol i k' hi hlt, hcol j k' hj hlt]
        exact h k' hlt
      · have hke : k' = arrays.length := by omega
        subst hke
        rw [hlast i hi, hlast j hj]
        exact h k hkN
  obtain ⟨hclen, hcpat, hcdense⟩ := combinedIndices_pattern X arrays.length L hN hXlen
  obtain ⟨hclen', hcpat', hcdense'⟩ :=
    combinedIndices_pattern X' (arrays.length + 1) L (by omega) hX'len
  have hcs : (combineIndexArrays X' (arrays.length + 1)).1
      = (combineIndexArrays X arrays.length).1 := by
    apply dense_pattern_unique _ _ (by rw [hclen, hclen'])
    · intro i j hi hj
      rw [hclen'] at hi hj
      rw [hcpat' i j hi hj, hcpat i j hi hj]
      exact htuples i j hi hj
    · exact hcdense'
    · exact hcdense
  have hU : distinctTuples X' (arrays.length + 1) = distinctTuples X arrays.length := by
    apply ids_count_unique (combineIndexArrays X arrays.length).1
    · rw [← hcs]
      exact combinedIndices_range X' (arrays.length + 1)
    · exact combinedIndices_range X arrays.length
  obtain ⟨hRlen', hred'⟩ := reduced_array_facts X' (arrays.length + 1) L (by omega) hX'len
  have hcolumns : ∀ u, u < distinctTuples X arrays.length → ∃ x,
      (combineIndexArrays X' (arrays.length + 1)).2[u * (arrays.length + 1) + k]?
        = some x ∧
      (combineIndexArrays X' (arrays.length + 1)).2[u * (arrays.length + 1)
        + arrays.length]? = some x := by
    intro u hu
    obtain ⟨j, hj⟩ := List.mem_iff_getElem?.mp ((combinedIndices_range X arrays.length).2 u hu)
    have hjL : j < L := hclen ▸ getElem?_lt_of_eq_some _ _ _ hj
    obtain ⟨ci, x, h1, h2, h3⟩ := hred' j k hjL (by omega)
    obtain ⟨ci', y, g1, g2, g3⟩ := hred' j arrays.length hjL (by omega)
    rw [hcs, hj] at h1 g1
    cases h1
    cases g1
    rw [hcol j k hjL hkN] at h2
    rw [hlast j hjL, h2] at g2
    cases g2
    exact ⟨x, h3, g3⟩
  refine ⟨X, X', hX, hX', ?_, ?_, hcs, hU, hcolumns, ?_⟩
  · simp only [interleaveAndCombineIndexArrays, hX]
  · simp only [interleaveAndCombineIndexArrays, hX', hlen']
  · intro T A
    have hdiv : (combineIndexArrays X' (arrays.length + 1)).2.length / (arrays.length + 1)
        = distinctTuples X arrays.length := by
      rw [hRlen', hU]
      exact Nat.mul_div_cancel _ (by omega)
    unfold writeCombinedArray
    rw [if_neg (by omega), hdiv]
    apply writeCombinedArrayLoop_congr
    intro j hj
    obtain ⟨x, h1, h2⟩ := hcolumns j hj
    have e1 : k + (0 + j) * (arrays.length + 1) = j * (arrays.length + 1) + k := by ring
    have e2 : arrays.length + (0 + j) * (arrays.length + 1)
        = j * (arrays.length + 1) + arrays.length := by ring
    rw [e1, e2, h1, h2]

/-- C18 on the index arrays of the documentation, the normal indices passed twice. -/
theorem combine_shared_index_array_witness :
    interleaveAndCombineIndexArrays
      [[0, 2, 5, 0, 0, 1, 3, 2, 2], [1, 3, 4, 1, 4, 6, 1, 3, 1],
       [1, 3, 4, 1, 4, 6, 1, 3, 1]]
      = .ok ([0, 1, 2, 0, 3, 4, 5, 1, 6],
        [0, 1, 1, 2, 3, 3, 5, 4, 4, 0, 4, 4, 1, 6, 6, 3, 1, 1, 2, 1, 1]) ∧
    ∃ X X', interleave [[0, 2, 5, 0, 0, 1, 3, 2, 2], [1, 3, 4, 1, 4, 6, 1, 3, 1]] = .ok X ∧
      interleave ([[0, 2, 5, 0, 0, 1, 3, 2, 2], [1, 3, 4, 1, 4, 6, 1, 3, 1]]
        ++ [[1, 3, 4, 1, 4, 6, 1, 3, 1]]) = .ok X' ∧
      interleaveAndCombineIndexArrays
          [[0, 2, 5, 0, 0, 1, 3, 2, 2], [1, 3, 4, 1, 4, 6, 1, 3, 1]]
        = .ok (combineIndexArrays X
          [[0, 2, 5, 0, 0, 1, 3, 2, 2], [1, 3, 4, 1, 4, 6, 1, 3, 1]].length) ∧
      interleaveAndCombineIndexArrays
          ([[0, 2, 5, 0, 0, 1, 3, 2, 2], [1, 3, 4, 1, 4, 6, 1, 3, 1]]
            ++ [[1, 3, 4, 1, 4, 6, 1, 3, 1]])
        = .ok (combineIndexArrays X'
          ([[0, 2, 5, 0, 0, 1, 3, 2, 2], [1, 3, 4, 1, 4, 6, 1, 3, 1]].length + 1)) ∧
      (combineIndexArrays X'
          ([[0, 2, 5, 0, 0, 1, 3, 2, 2], [1, 3, 4, 1, 4, 6, 1, 3, 1]].length + 1)).1
        = (combineIndexArrays X
          [[0, 2, 5, 0, 0, 1, 3, 2, 2], [1, 3, 4, 1, 4, 6, 1, 3, 1]].length).1 ∧
      distinctTuples X'
          ([[0, 2, 5, 0, 0, 1, 3, 2, 2], [1, 3, 4, 1, 4, 6, 1, 3, 1]].length + 1)
        = distinctTuples X
          [[0, 2, 5, 0, 0, 1, 3, 2, 2], [1, 3, 4, 1, 4, 6, 1, 3, 1]].length ∧
      (∀ u, u < distinctTuples X
          [[0, 2, 5, 0, 0, 1, 3, 2, 2], [1, 3, 4, 1, 4, 6, 1, 3, 1]].length → ∃ x,
        (combineIndexArrays X'
          ([[0, 2, 5, 0, 0, 1, 3, 2, 2], [1, 3, 4, 1, 4, 6, 1, 3, 1]].length + 1)).2[
            u * ([[0, 2, 5, 0, 0, 1, 3, 2, 2], [1, 3, 4, 1, 4, 6, 1, 3, 1]].length + 1)
              + 1]? = some x ∧
        (combineIndexArrays X'
          ([[0, 2, 5, 0, 0, 1, 3, 2, 2], [1, 3, 4, 1, 4, 6, 1, 3, 1]].length + 1)).2[
            u * ([[0, 2, 5, 0, 0, 1, 3, 2, 2], [1, 3, 4, 1, 4, 6, 1, 3, 1]].length + 1)
              + [[0, 2, 5, 0, 0, 1, 3, 2, 2], [1, 3, 4, 1, 4, 6, 1, 3, 1]].length]?
          = some x) ∧
      ∀ (T : Type) (A : List T),
        writeCombinedArray
            ([[0, 2, 5, 0, 0, 1, 3, 2, 2], [1, 3, 4, 1, 4, 6, 1, 3, 1]].length + 1) 1
            (combineIndexArrays X'
              ([[0, 2, 5, 0, 0, 1, 3, 2, 2], [1, 3, 4, 1, 4, 6, 1, 3, 1]].length + 1)).2 A
          = writeCombinedArray
            ([[0, 2, 5, 0, 0, 1, 3, 2, 2], [1, 3, 4, 1, 4, 6, 1, 3, 1]].length + 1)
            [[0, 2, 5, 0, 0, 1, 3, 2, 2], [1, 3, 4, 1, 4, 6, 1, 3, 1]].length
            (combineIndexArrays X'
              ([[0, 2, 5, 0, 0, 1, 3, 2, 2], [1, 3, 4, 1, 4, 6, 1, 3, 1]].length + 1)).2 A :=
  ⟨rfl, combine_shared_index_array
    [[0, 2, 5, 0, 0, 1, 3, 2, 2], [1, 3, 4, 1, 4, 6, 1, 3, 1]] 9 1
    [1, 3, 4, 1, 4, 6, 1, 3, 1] (by decide) (by decide) rfl⟩

end Magnum.MeshTools
